import Mathlib

/-!
Verification of the PNG2Vector raster→vector pipeline.

Shallow embedding of the core pipeline of the repository:
geometry validation/repair (`apps/server/src/trace/geometry.ts`),
DXF export (`apps/server/src/trace/dxf.ts`),
Moore-neighborhood contour extraction (`apps/server/src/trace/contour.ts`)
and speckle removal (`apps/server/src/trace/raster.ts`).

Numbers: the source operates on JS doubles; the embedding idealizes them as
rationals (`ℚ`).  Exact-comparison idioms are translated verbatim; the one
non-rational operation, `Math.sqrt` in a comparison `sqrt (dx²+dy²) ≥ tol`,
is embedded as the equivalent `dx²+dy² ≥ tol²` (both sides nonnegative).
The polygon-boolean collaborator (the `martinez-polygon-clipping` npm
dependency, external to the repository) is modelled as a parameter
`clip : MPolygon → Option (List MPolygon)`; `none` models the collaborator
throwing, `some l` models it returning the list `l`, exactly the two
behaviours `fixSelfIntersections` distinguishes.
-/

set_option maxRecDepth 1000000

namespace PNG2Vec

/-- `Point` from `shared/types`: floating-point pixel coordinates, idealized as ℚ. -/
structure Point where
  x : ℚ
  y : ℚ
deriving DecidableEq, Repr, Inhabited

/-- `Polygon` from `shared/types`: exterior ring plus hole rings. -/
structure Polygon where
  exterior : List Point
  holes : List (List Point)
deriving DecidableEq, Repr, Inhabited

/-! ## Geometry validator (`apps/server/src/trace/geometry.ts`) -/

/-- The `0.001` tolerance used throughout `geometry.ts`. -/
def tolerance : ℚ := 1 / 1000

/-- `ensureClosedRing` (geometry.ts:81-95): append a copy of the first point
unless first and last already agree within the tolerance on both axes. -/
def ensureClosedRing (points : List Point) : List Point :=
  if points.length < 3 then points
  else
    let first := points.headD default
    let last := points.getLastD default
    if |first.x - last.x| < tolerance ∧ |first.y - last.y| < tolerance then points
    else points ++ [⟨first.x, first.y⟩]

/-- Walk of `removeDuplicatePoints` (geometry.ts:100-119): `prev` is the last
kept point; a point is kept iff its Euclidean distance from `prev` is ≥ the
tolerance (embedded squared on both sides). -/
def removeDuplicatePointsAux (prev : Point) : List Point → List Point
  | [] => []
  | q :: rest =>
    if tolerance * tolerance ≤ (q.x - prev.x) * (q.x - prev.x) + (q.y - prev.y) * (q.y - prev.y)
    then q :: removeDuplicatePointsAux q rest
    else removeDuplicatePointsAux prev rest

/-- `removeDuplicatePoints` (geometry.ts:100-119) at the default tolerance. -/
def removeDuplicatePoints (points : List Point) : List Point :=
  match points with
  | [] => points
  | [p] => [p]
  | p :: rest => p :: removeDuplicatePointsAux p rest

/-- The sum `Σ (x[i+1]-x[i])·(y[i+1]+y[i])` over consecutive pairs, as in the
loop of `calculateSignedArea` (geometry.ts:156-167), which runs `i` from `0`
to `length-2` without wrapping around. -/
def sap : List Point → ℚ
  | p :: q :: rest => (q.x - p.x) * (q.y + p.y) + sap (q :: rest)
  | _ => 0

/-- `calculateSignedArea` (geometry.ts:156-167): positive = clockwise,
negative = counter-clockwise; 0 for fewer than 3 points. -/
def calculateSignedArea (points : List Point) : ℚ :=
  if points.length < 3 then 0 else sap points / 2

/-- `ensureCounterClockwise` (geometry.ts:124-135). -/
def ensureCounterClockwise (points : List Point) : List Point :=
  if points.length < 3 then points
  else if 0 < calculateSignedArea points then points.reverse
  else points

/-- `ensureClockwise` (geometry.ts:140-151). -/
def ensureClockwise (points : List Point) : List Point :=
  if points.length < 3 then points
  else if calculateSignedArea points < 0 then points.reverse
  else points

/-- Coordinate ring in the `martinez-polygon-clipping` array format. -/
abbrev MRing := List (ℚ × ℚ)

/-- Polygon-with-holes in the martinez format: exterior ring first. -/
abbrev MPolygon := List MRing

/-- The conversion to martinez format in `fixSelfIntersections`
(geometry.ts:182-186). -/
def toMartinez (polygon : Polygon) : MPolygon :=
  polygon.exterior.map (fun p => (p.x, p.y)) ::
    polygon.holes.map (fun h => h.map fun p => (p.x, p.y))

/-- The result handling of `fixSelfIntersections` (geometry.ts:191-210):
empty result list, or an empty first polygon, yields `null`; otherwise the
first result polygon is converted back. -/
def fromMartinezFirst : List MPolygon → Option Polygon
  | [] => none
  | first :: _ =>
    match first with
    | [] => none
    | ext :: holes =>
      some ⟨ext.map fun c => ⟨c.1, c.2⟩, holes.map fun h => h.map fun c => ⟨c.1, c.2⟩⟩

/-- `fixSelfIntersections` (geometry.ts:179-216), parametric in the
polygon-boolean collaborator: a thrown error (`none`) is caught and the
original polygon returned; otherwise the first result polygon is taken. -/
def fixSelfIntersections (clip : MPolygon → Option (List MPolygon)) (polygon : Polygon) :
    Option Polygon :=
  match clip (toMartinez polygon) with
  | none => some polygon
  | some fixed => fromMartinezFirst fixed

/-- The closure/dedup/orientation stage of `validateGeometry`
(geometry.ts:24-47): the polygon as it stands immediately before
`fixSelfIntersections` is invoked. -/
def orientPolygon (polygon : Polygon) : Polygon :=
  { exterior := ensureCounterClockwise (removeDuplicatePoints (ensureClosedRing polygon.exterior))
    holes :=
      (((polygon.holes.map ensureClosedRing).map removeDuplicatePoints).filter
        (fun h => 3 ≤ h.length)).map ensureClockwise }

/-- One iteration of the `validateGeometry` loop (geometry.ts:17-57) on a
single polygon: skip degenerate input, close/dedup/orient, then repair. -/
def processPolygon (clip : MPolygon → Option (List MPolygon)) (polygon : Polygon) :
    Option Polygon :=
  if polygon.exterior.length < 3 then none
  else if (removeDuplicatePoints (ensureClosedRing polygon.exterior)).length < 3 then none
  else fixSelfIntersections clip (orientPolygon polygon)

/-- `validateGeometry` (geometry.ts:14-61), parametric in the collaborator. -/
def validateGeometry (clip : MPolygon → Option (List MPolygon)) (polygons : List Polygon) :
    List Polygon :=
  polygons.filterMap (processPolygon clip)

/-- A collaborator that always throws (models every `martinez.union` call
raising), exercising the fallback path of `fixSelfIntersections`. -/
def clipThrow : MPolygon → Option (List MPolygon) := fun _ => none

/-- A collaborator that always returns an empty result list, exercising the
discard path of `fixSelfIntersections`. -/
def clipEmpty : MPolygon → Option (List MPolygon) := fun _ => some []

/-- Degenerate input for the winding-order claims: three distinct collinear
points; its closed ring has signed area exactly 0. -/
def collinearPoly : Polygon := ⟨[⟨0, 0⟩, ⟨2, 2⟩, ⟨4, 4⟩], []⟩

/-- A plain square polygon used as a concrete non-degenerate input. -/
def squarePoly : Polygon := ⟨[⟨0, 0⟩, ⟨10, 0⟩, ⟨10, 10⟩, ⟨0, 10⟩], []⟩

/-- Ring whose first and last points differ by exactly the tolerance on the
x axis (and not at all on the y axis). -/
def boundaryRing : List Point := [⟨0, 0⟩, ⟨2, 0⟩, ⟨1 / 1000, 0⟩]

/-! ## DXF writer (`apps/server/src/trace/dxf.ts`)

Lines of the DXF file are modelled as a `List String`; `generateDXF` joins
them with `"\n"` exactly as `dxfContent.join('\n')` does.  Decimal and
hexadecimal rendering of numbers (`toString`, `toString(16).toUpperCase()`)
is embedded by an explicit digit renderer. -/

/-- Digit character for a value `< 16`: `0`-`9` then uppercase `A`-`F`. -/
def digitChar (n : ℕ) : Char :=
  if n < 10 then Char.ofNat (48 + n) else Char.ofNat (55 + n)

/-- Most-significant-first digit expansion in a given base, with fuel (the
fuel `n + 1` always suffices for rendering `n`). -/
def toDigitsAux (base : ℕ) : ℕ → ℕ → List Char → List Char
  | 0, _, acc => acc
  | fuel + 1, n, acc =>
    if n < base then digitChar n :: acc
    else toDigitsAux base fuel (n / base) (digitChar (n % base) :: acc)

/-- JS `Number.prototype.toString()` for naturals (decimal). -/
def decStr (n : ℕ) : String := ⟨toDigitsAux 10 (n + 1) n []⟩

/-- JS `Number.prototype.toString(16).toUpperCase()` for naturals. -/
def hexStr (n : ℕ) : String := ⟨toDigitsAux 16 (n + 1) n []⟩

/-- The six decimal digits of `fp < 10^6`, most significant first. -/
def padDigits6 (fp : ℕ) : List Char :=
  [digitChar (fp / 100000 % 10), digitChar (fp / 10000 % 10), digitChar (fp / 1000 % 10),
   digitChar (fp / 100 % 10), digitChar (fp / 10 % 10), digitChar (fp % 10)]

/-- Trailing `'0'` removal (the effect of `Number(...)` re-parsing a fixed
6-decimal string). -/
def stripTrailingZeros (l : List Char) : List Char :=
  (l.reverse.dropWhile (fun c => c == '0')).reverse

/-- `formatDXFCoordinate` (dxf.ts:362-364): `Number(value.toFixed(6)).toString()`.
`toFixed(6)` rounds to the nearest multiple of `10⁻⁶` (ties toward the
larger value, per ECMA-262); re-parsing and printing drops trailing
fractional zeros, and drops the decimal point when the fraction is zero. -/
def formatDXFCoordinate (value : ℚ) : String :=
  let n : ℤ := ⌊value * 1000000 + 1 / 2⌋
  let m : ℕ := n.natAbs
  let ip : ℕ := m / 1000000
  let fp : ℕ := m % 1000000
  let frac : List Char := stripTrailingZeros (padDigits6 fp)
  (if n < 0 then "-" else "") ++ decStr ip ++ (if frac.isEmpty then "" else "." ++ ⟨frac⟩)

/-- Number of characters after the (first) decimal point of a rendered
number; 0 when there is no decimal point. -/
def fracLen (s : String) : ℕ :=
  ((s.data.dropWhile (fun c => c != '.')).drop 1).length

/-- The `'10' x '20' y` coordinate-pair lines emitted per vertex. -/
def formatPointPair (p : Point) : List String :=
  ["10", formatDXFCoordinate p.x, "20", formatDXFCoordinate p.y]

/-- `generateLWPolyline` (dxf.ts:182-215). -/
def generateLWPolyline (points : List Point) (layer handle : String) : List String :=
  if points.length < 3 then []
  else
    ["0", "LWPOLYLINE", "5", handle, "330", "1F", "100", "AcDbEntity", "8", layer,
     "100", "AcDbPolyline", "90", decStr points.length, "70", "1"]
    ++ points.flatMap formatPointPair

/-- `generateBoundaryPath` (dxf.ts:286-316). -/
def generateBoundaryPath (points : List Point) (pathFlag : ℕ) : List String :=
  if points.length < 3 then []
  else
    ["92", decStr pathFlag, "93", "1", "72", "1", "94", decStr points.length]
    ++ points.flatMap formatPointPair ++ ["97", "0"]

/-- The hatch style/seed lines closing a HATCH entity (dxf.ts:267-278). -/
def hatchStyleTail : List String :=
  ["75", "1", "76", "1", "98", "1", "10", "0.0", "20", "0.0"]

/-- `generateHatchEntity` (dxf.ts:220-281). -/
def generateHatchEntity (polygon : Polygon) (layer handle : String) : List String :=
  ["0", "HATCH", "5", handle, "330", "1F", "100", "AcDbEntity", "8", layer, "62", "7",
   "100", "AcDbHatch", "10", "0.0", "20", "0.0", "30", "0.0", "210", "0.0", "220", "0.0",
   "230", "1.0", "2", "SOLID", "70", "1", "71", "0", "91", decStr (1 + polygon.holes.length)]
  ++ generateBoundaryPath polygon.exterior 2
  ++ polygon.holes.flatMap (fun h => generateBoundaryPath h 16)
  ++ hatchStyleTail

/-- The hole loop of `generateDXFEntities` (dxf.ts:155-162): one LWPOLYLINE
per hole, the handle counter advancing per hole. -/
def holePolylines : List (List Point) → ℕ → List String × ℕ
  | [], counter => ([], counter)
  | h :: rest, counter =>
    let e := generateLWPolyline h "VW_CLASS_Detail" (hexStr counter)
    let (tl, c') := holePolylines rest (counter + 1)
    (e ++ tl, c')

/-- The polygon loop of `generateDXFEntities` (dxf.ts:145-173): per polygon
an exterior LWPOLYLINE, hole LWPOLYLINEs, and (when `whiteFill`) a HATCH. -/
def entityLoop : List Polygon → ℕ → Bool → List String
  | [], _, _ => []
  | p :: rest, counter, whiteFill =>
    let extE := generateLWPolyline p.exterior "VW_CLASS_Detail" (hexStr counter)
    let (holesE, c2) := holePolylines p.holes (counter + 1)
    let (hatchE, c3) :=
      if whiteFill then (generateHatchEntity p "VW_CLASS_Fill" (hexStr c2), c2 + 1)
      else ([], c2)
    extE ++ holesE ++ hatchE ++ entityLoop rest c3 whiteFill

/-- `generateDXFEntities` (dxf.ts:134-177); the handle counter starts at 100. -/
def generateDXFEntities (polygons : List Polygon) (whiteFill : Bool) : List String :=
  ["0", "SECTION", "2", "ENTITIES"] ++ entityLoop polygons 100 whiteFill ++ ["0", "ENDSEC"]

/-- `generateDXFHeader` (dxf.ts:33-54). -/
def generateDXFHeader : List String :=
  ["0", "SECTION", "2", "HEADER", "9", "$ACADVER", "1", "AC1015", "9", "$HANDSEED",
   "5", "FFFF", "9", "$MEASUREMENT", "70", "1", "0", "ENDSEC"]

/-- `generateDXFTables` (dxf.ts:59-129). -/
def generateDXFTables : List String :=
  ["0", "SECTION", "2", "TABLES",
   "0", "TABLE", "2", "LAYER", "5", "2", "330", "0", "100", "AcDbSymbolTable", "70", "2",
   "0", "LAYER", "5", "10", "330", "2", "100", "AcDbSymbolTableRecord",
   "100", "AcDbLayerTableRecord", "2", "VW_CLASS_Detail", "70", "0", "62", "7",
   "6", "CONTINUOUS", "370", "25",
   "0", "LAYER", "5", "11", "330", "2", "100", "AcDbSymbolTableRecord",
   "100", "AcDbLayerTableRecord", "2", "VW_CLASS_Fill", "70", "0", "62", "1",
   "6", "CONTINUOUS", "370", "0",
   "0", "ENDTAB", "0", "ENDSEC"]

/-- `generateDXFFooter` (dxf.ts:321-356). -/
def generateDXFFooter : List String :=
  ["0", "SECTION", "2", "OBJECTS", "0", "DICTIONARY", "5", "C", "330", "0",
   "100", "AcDbDictionary", "281", "1", "3", "ACAD_GROUP", "350", "D",
   "0", "DICTIONARY", "5", "D", "330", "C", "100", "AcDbDictionary", "281", "1",
   "0", "ENDSEC", "0", "EOF"]

/-- The line list of `generateDXF` (dxf.ts:7-28). -/
def generateDXFLines (polygons : List Polygon) (whiteFill : Bool) : List String :=
  generateDXFHeader ++ generateDXFTables ++ generateDXFEntities polygons whiteFill
    ++ generateDXFFooter

/-- `generateDXF` (dxf.ts:7-28); `width`/`height` are accepted and unused,
as in the source. -/
def generateDXF (polygons : List Polygon) (width height : ℚ) (whiteFill : Bool) : String :=
  String.intercalate "\n" (generateDXFLines polygons whiteFill)

/-- One block of `generateMinimalDXF` (dxf.ts:378-414): a reduced
LWPOLYLINE for a ring with at least three points, nothing otherwise. -/
def minimalPolyBlock (ring : List Point) : List String :=
  if 3 ≤ ring.length then
    ["0", "LWPOLYLINE", "8", "VW_CLASS_Detail", "90", decStr ring.length, "70", "1"]
    ++ ring.flatMap formatPointPair
  else []

/-- The line list of `generateMinimalDXF` (dxf.ts:369-422). -/
def generateMinimalDXFLines (polygons : List Polygon) (whiteFill : Bool) : List String :=
  ["0", "SECTION", "2", "ENTITIES"]
  ++ polygons.flatMap (fun p => minimalPolyBlock p.exterior ++ p.holes.flatMap minimalPolyBlock)
  ++ ["0", "ENDSEC", "0", "EOF"]

/-- `generateMinimalDXF` (dxf.ts:369-422); `whiteFill` is accepted and
unused, as in the source. -/
def generateMinimalDXF (polygons : List Polygon) (whiteFill : Bool) : String :=
  String.intercalate "\n" (generateMinimalDXFLines polygons whiteFill)

/-- Characters that can occur in a rendered number: digits, `-`, `.`, and
uppercase hex digits `A`-`F`. -/
def numChar (c : Char) : Bool :=
  c.isDigit || c == '-' || c == '.' || ('A' ≤ c && c ≤ 'F')

/-- A string all of whose characters are `numChar`. -/
abbrev numStrP (s : String) : Prop := ∀ c ∈ s.data, numChar c = true

/-- A line that is none of the three section-structure markers. -/
def neutralLine (s : String) : Prop := s ≠ "SECTION" ∧ s ≠ "ENDSEC" ∧ s ≠ "EOF"

/-- Depth check for SECTION/ENDSEC pairing: scanning forward, the depth
never goes negative and ends at zero (each SECTION is closed by a later
ENDSEC and no ENDSEC is unmatched). -/
def sectionDepthOk : List String → ℤ → Bool
  | [], d => d == 0
  | l :: rest, d =>
    let d' : ℤ := if l = "SECTION" then d + 1 else if l = "ENDSEC" then d - 1 else d
    decide (0 ≤ d') && sectionDepthOk rest d'

/-- A square with a (clockwise) triangular hole, all rings with ≥3 points. -/
def squareWithHole : Polygon :=
  ⟨[⟨0, 0⟩, ⟨10, 0⟩, ⟨10, 10⟩, ⟨0, 10⟩], [[⟨2, 2⟩, ⟨2, 4⟩, ⟨4, 2⟩]]⟩

/-! ## Contour extractor (`apps/server/src/trace/contour.ts`)

The bitmap is width/height plus an RGBA byte buffer; only the R byte at
`(y*width+x)*4` is read by the tracer.  The unbounded `do … while` loop of
`traceContour` is embedded with fuel: `none` means the loop did not
terminate within the given fuel, and the scan drivers propagate `none`. -/

/-- `ImageData` from `shared/types`: RGBA buffer, 4 bytes per pixel. -/
structure ImageData where
  width : ℕ
  height : ℕ
  data : List ℕ
deriving DecidableEq, Repr, Inhabited

/-- `Contour` (contour.ts:5-10). -/
structure Contour where
  points : List Point
  holes : List (List Point)
  isHole : Bool
  parent : ℤ
deriving DecidableEq, Repr, Inhabited

/-- Read the R byte of an in-bounds pixel; the 999 default is unreachable
under the bounds checks the source performs before every read. -/
def rawPixel (img : ImageData) (x y : ℕ) : ℕ :=
  img.data.getD ((y * img.width + x) * 4) 999

/-- The 8-neighbor offset list of `isContourStart`/`isHoleStart`
(contour.ts:74-78, 194-198). -/
def neighborOffsets : List (ℤ × ℤ) :=
  [(-1, -1), (-1, 0), (-1, 1), (0, -1), (0, 1), (1, -1), (1, 0), (1, 1)]

/-- `isContourStart` (contour.ts:70-95): foreground pixel with at least one
background or out-of-bounds 8-neighbor. -/
def isContourStart (img : ImageData) (x y : ℕ) : Bool :=
  neighborOffsets.any fun d =>
    let nx : ℤ := (x : ℤ) + d.1
    let ny : ℤ := (y : ℤ) + d.2
    if nx < 0 ∨ (img.width : ℤ) ≤ nx ∨ ny < 0 ∨ (img.height : ℤ) ≤ ny then true
    else decide (rawPixel img nx.toNat ny.toNat = 255)

/-- `isHoleStart` (contour.ts:190-214): white pixel with ≥6 black in-bounds
8-neighbors. -/
def isHoleStart (img : ImageData) (x y : ℕ) : Bool :=
  decide (6 ≤ neighborOffsets.countP fun d =>
    let nx : ℤ := (x : ℤ) + d.1
    let ny : ℤ := (y : ℤ) + d.2
    decide (0 ≤ nx ∧ nx < (img.width : ℤ) ∧ 0 ≤ ny ∧ ny < (img.height : ℤ) ∧
      rawPixel img nx.toNat ny.toNat = 0))

/-- The Moore direction table of `traceContour` (contour.ts:106-115),
index 0 = North. -/
def directions : List (ℤ × ℤ) :=
  [(0, -1), (1, -1), (1, 0), (1, 1), (0, 1), (-1, 1), (-1, 0), (-1, -1)]

/-- The neighbor search of one `traceContour` iteration (contour.ts:127-144):
scan the 8 directions starting at `direction`, returning the first in-bounds
foreground neighbor and the next search direction `(found + 6) % 8`. -/
def findNext (img : ImageData) (x y : ℤ) (direction : ℕ) : Option (ℤ × ℤ × ℕ) :=
  (List.range 8).findSome? fun i =>
    let checkDir := (direction + i) % 8
    let d := directions.getD checkDir (0, 0)
    let nx := x + d.1
    let ny := y + d.2
    if 0 ≤ nx ∧ nx < (img.width : ℤ) ∧ 0 ≤ ny ∧ ny < (img.height : ℤ) ∧
        rawPixel img nx.toNat ny.toNat = 0
    then some (nx, ny, (checkDir + 6) % 8)
    else none

/-- The `do … while` loop of `traceContour` (contour.ts:121-148), with fuel:
push and mark the current pixel, search for the next boundary pixel, break
(returning the points) when none is found, exit when the next pixel is the
start and at least 3 points have been collected, and otherwise continue. -/
def traceAux (img : ImageData) (startX startY : ℤ) :
    ℕ → ℤ → ℤ → ℕ → List Point → List Bool → Option (List Point × List Bool)
  | 0, _, _, _, _, _ => none
  | fuel + 1, x, y, direction, pts, visited =>
    let pts' := pts ++ [⟨(x : ℚ), (y : ℚ)⟩]
    let visited' := visited.set (y.toNat * img.width + x.toNat) true
    match findNext img x y direction with
    | none => some (pts', visited')
    | some (nx, ny, nd) =>
      if nx = startX ∧ ny = startY ∧ 3 ≤ pts'.length then some (pts', visited')
      else traceAux img startX startY fuel nx ny nd pts' visited'

/-- `traceContour` (contour.ts:101-151): trace from `(x, y)`, starting
direction North. -/
def traceContour (img : ImageData) (fuel : ℕ) (x y : ℕ) (visited : List Bool) :
    Option (List Point × List Bool) :=
  traceAux img x y fuel x y 0 [] visited

/-- Row-major scan order of the main loop of `extractContours`
(contour.ts:23-24). -/
def scanPositions (w h : ℕ) : List (ℕ × ℕ) :=
  (List.range h).flatMap fun y => (List.range w).map fun x => (x, y)

/-- Row-major interior scan order of `findHoles` (contour.ts:163-164):
`y` from 1 to `height-2`, `x` from 1 to `width-2`. -/
def holePositions (w h : ℕ) : List (ℕ × ℕ) :=
  (List.range (h - 2)).flatMap fun y => (List.range (w - 2)).map fun x => (x + 1, y + 1)

/-- One pixel of the main scan of `extractContours` (contour.ts:23-45):
skip visited pixels, trace at unvisited foreground contour starts, keep the
contour when it has more than 3 points (with `isHole := false`,
`parent := -1`). -/
def outerStep (img : ImageData) (fuel : ℕ) (pos : ℕ × ℕ) (st : List Contour × List Bool) :
    Option (List Contour × List Bool) :=
  let index := pos.2 * img.width + pos.1
  if st.2.getD index false then some st
  else if rawPixel img pos.1 pos.2 = 0 ∧ isContourStart img pos.1 pos.2 then
    match traceContour img fuel pos.1 pos.2 st.2 with
    | none => none
    | some (pts, visited') =>
      if 3 < pts.length then some (st.1 ++ [⟨pts, [], false, -1⟩], visited')
      else some (st.1, visited')
  else some st

/-- `pointInPolygon` (contour.ts:231-247): ray casting over the edges
`(i, j)` with `j` the predecessor of `i` (wrapping). -/
def pointInPolygon (point : Point) (polygon : List Point) : Bool :=
  (List.range polygon.length).foldl
    (fun inside i =>
      let j := if i = 0 then polygon.length - 1 else i - 1
      let pi := polygon.getD i default
      let pj := polygon.getD j default
      if (decide (point.y < pi.y) != decide (point.y < pj.y)) &&
          decide (point.x < (pj.x - pi.x) * (point.y - pi.y) / (pj.y - pi.y) + pi.x)
      then !inside else inside)
    false

/-- `findContainingContour` (contour.ts:219-226): index of the first contour
whose exterior contains the point, `none` for the source's `-1`. -/
def findContainingContour (contours : List Contour) (point : Point) : Option ℕ :=
  contours.findIdx? fun c => pointInPolygon point c.points

/-- `result[parentIndex].holes.push(holePoints)` (contour.ts:177): append a
hole ring to the contour at the given index. -/
def addHoleAt : List Contour → ℕ → List Point → List Contour
  | [], _, _ => []
  | c :: rest, 0, pts => { c with holes := c.holes ++ [pts] } :: rest
  | c :: rest, n + 1, pts => c :: addHoleAt rest n pts

/-- One pixel of the hole scan of `findHoles` (contour.ts:163-182): skip
visited or non-white pixels, trace at hole starts, and attach traces of
more than 3 points to the first containing contour (dropping them when no
contour contains their first point). -/
def holeStep (img : ImageData) (fuel : ℕ) (pos : ℕ × ℕ) (st : List Contour × List Bool) :
    Option (List Contour × List Bool) :=
  let index := pos.2 * img.width + pos.1
  if st.2.getD index false then some st
  else if rawPixel img pos.1 pos.2 ≠ 255 then some st
  else if isHoleStart img pos.1 pos.2 then
    match traceContour img fuel pos.1 pos.2 st.2 with
    | none => none
    | some (pts, visited') =>
      if 3 < pts.length then
        match findContainingContour st.1 (pts.headD default) with
        | some parentIndex => some (addHoleAt st.1 parentIndex pts, visited')
        | none => some (st.1, visited')
      else some (st.1, visited')
  else some st

/-- Fold a scan step over a pixel list, propagating a fuel exhaustion. -/
def scanFold (step : (ℕ × ℕ) → (List Contour × List Bool) → Option (List Contour × List Bool)) :
    List (ℕ × ℕ) → (List Contour × List Bool) → Option (List Contour × List Bool)
  | [], st => some st
  | p :: rest, st => (step p st).bind (scanFold step rest)

/-- `findHoles` (contour.ts:156-185): fresh visited mask, interior scan. -/
def findHoles (img : ImageData) (fuel : ℕ) (contours : List Contour) :
    Option (List Contour) :=
  (scanFold (holeStep img fuel) (holePositions img.width img.height)
    (contours, List.replicate (img.width * img.height) false)).map (·.1)

/-- `extractContours` (contour.ts:16-52): main scan then hole scan. -/
def extractContours (img : ImageData) (fuel : ℕ) : Option (List Contour) :=
  (scanFold (outerStep img fuel) (scanPositions img.width img.height)
    ([], List.replicate (img.width * img.height) false)).bind
    fun st => findHoles img fuel st.1

/-- Build a grayscale RGBA bitmap from a per-pixel value function. -/
def mkBitmap (w h : ℕ) (f : ℕ → ℕ → ℕ) : ImageData :=
  ⟨w, h, (List.range (w * h)).flatMap fun i => [f (i % w) (i / w), f (i % w) (i / w),
    f (i % w) (i / w), 255]⟩

/-- The 7×7 test bitmap: a 5×5 foreground ring with a 1×1 background hole
at its center `(3,3)`. -/
def ringPixel (x y : ℕ) : ℕ :=
  if 1 ≤ x ∧ x ≤ 5 ∧ 1 ≤ y ∧ y ≤ 5 ∧ ¬(x = 3 ∧ y = 3) then 0 else 255

/-- The 7×7 ring bitmap of spec scenario 2. -/
def ringBitmap : ImageData := mkBitmap 7 7 ringPixel

/-- A 2×2 all-background bitmap. -/
def whiteBitmap : ImageData := mkBitmap 2 2 fun _ _ => 255

/-- Relation between the contour list entering the hole scan and the one
leaving it: same length, and entrywise the points, `isHole` and `parent`
fields are unchanged while the holes list has only been extended. -/
def holePhaseRel (cs cs' : List Contour) : Prop :=
  cs'.length = cs.length ∧
  ∀ i : ℕ,
    (cs'.getD i default).points = (cs.getD i default).points ∧
    (cs'.getD i default).isHole = (cs.getD i default).isHole ∧
    (cs'.getD i default).parent = (cs.getD i default).parent ∧
    ∃ extra, (cs'.getD i default).holes = (cs.getD i default).holes ++ extra

/-! ## Speckle removal (`apps/server/src/trace/raster.ts`, compiled copy in
`apps/server/dist/apps/server/src/index.js`)

`floodFill`'s `while (stack.length > 0)` loop is embedded with fuel; the
fixed fuel `2 + 5·width·height` is proved sufficient below (each iteration
strictly decreases `stack.length + 5·(number of valid unvisited pixels)`),
so `removeSpeckles` in fact always returns `some`. -/

/-- Stack entries are raw `(x, y)` integer pairs, as in the source (they may
be out of bounds; the loop bounds-checks each pop). -/
abbrev inB (img : ImageData) (e : ℤ × ℤ) : Prop :=
  0 ≤ e.1 ∧ e.1 < (img.width : ℤ) ∧ 0 ≤ e.2 ∧ e.2 < (img.height : ℤ)

/-- `index = y * width + x` for an in-bounds stack entry. -/
def idxOf (img : ImageData) (e : ℤ × ℤ) : ℕ := e.2.toNat * img.width + e.1.toNat

/-- The `while` loop of `floodFill` (index.js:337-363): pop, skip
out-of-bounds / visited / non-foreground entries, otherwise mark, collect,
and push the four 4-neighbors (popped in the order `(x,y-1)`, `(x,y+1)`,
`(x-1,y)`, `(x+1,y)`, matching the LIFO order of `stack.push(a,b,c,d)`). -/
def floodFillAux (img : ImageData) :
    ℕ → List (ℤ × ℤ) → List Bool → List ℕ → Option (List Bool × List ℕ)
  | _, [], visited, component => some (visited, component)
  | 0, _ :: _, _, _ => none
  | fuel + 1, e :: rest, visited, component =>
    if ¬ inB img e then floodFillAux img fuel rest visited component
    else if visited.getD (idxOf img e) false then floodFillAux img fuel rest visited component
    else if img.data.getD (idxOf img e * 4) 999 ≠ 0 then
      floodFillAux img fuel rest visited component
    else
      floodFillAux img fuel
        ((e.1, e.2 - 1) :: (e.1, e.2 + 1) :: (e.1 - 1, e.2) :: (e.1 + 1, e.2) :: rest)
        (visited.set (idxOf img e) true) (component ++ [idxOf img e])

/-- Fuel sufficient for any `floodFill` run on `img` (proved below). -/
def floodFillFuel (img : ImageData) : ℕ := 2 + 5 * (img.width * img.height)

/-- `floodFill` (index.js:337-363). -/
def floodFill (img : ImageData) (startX startY : ℕ) (visited : List Bool) :
    Option (List Bool × List ℕ) :=
  floodFillAux img (floodFillFuel img) [((startX : ℤ), (startY : ℤ))] visited []

/-- The erase loop body of `removeSpeckles` (index.js:199-204): set the
R, G and B bytes of one pixel to 255 (alpha untouched). -/
def erase1 (d : List ℕ) (i : ℕ) : List ℕ :=
  ((d.set (i * 4) 255).set (i * 4 + 1) 255).set (i * 4 + 2) 255

/-- One pixel of the `removeSpeckles` scan (index.js:191-208): flood-fill
unvisited foreground pixels and erase the collected component when its size
is below `minArea`.  The original `data` is read throughout; writes go to
the `cleanedData` copy. -/
def removeSpecklesStep (img : ImageData) (minArea : ℚ) (pos : ℕ × ℕ)
    (st : List Bool × List ℕ) : Option (List Bool × List ℕ) :=
  if ¬ st.1.getD (pos.2 * img.width + pos.1) false ∧
      img.data.getD ((pos.2 * img.width + pos.1) * 4) 999 = 0 then
    match floodFill img pos.1 pos.2 st.1 with
    | none => none
    | some (visited', component) =>
      if (component.length : ℚ) < minArea then
        some (visited', component.foldl erase1 st.2)
      else some (visited', st.2)
  else some st

/-- Fold the speckle scan over a pixel list, propagating fuel exhaustion. -/
def rsFold (step : (ℕ × ℕ) → (List Bool × List ℕ) → Option (List Bool × List ℕ)) :
    List (ℕ × ℕ) → (List Bool × List ℕ) → Option (List Bool × List ℕ)
  | [], st => some st
  | p :: rest, st => (step p st).bind (rsFold step rest)

/-- `removeSpeckles` (index.js:185-216): row-major scan over all pixels,
fresh visited mask, cleaned buffer starting as a copy of the input data. -/
def removeSpeckles (img : ImageData) (minArea : ℚ) : Option ImageData :=
  (rsFold (removeSpecklesStep img minArea) (scanPositions img.width img.height)
    (List.replicate (img.width * img.height) false, img.data)).map
    fun st => ⟨img.width, img.height, st.2⟩

/-- Pixel `i` is foreground (black): its R byte is 0. -/
def isFg (img : ImageData) (i : ℕ) : Prop := img.data.getD (i * 4) 999 = 0

/-- Pixel `i` is background (white): its R byte is 255. -/
def isBg (img : ImageData) (i : ℕ) : Prop := img.data.getD (i * 4) 999 = 255

/-- 4-adjacency of two valid foreground pixel indices. -/
def Adj (img : ImageData) (i j : ℕ) : Prop :=
  i < img.width * img.height ∧ j < img.width * img.height ∧ isFg img i ∧ isFg img j ∧
  ((i % img.width = j % img.width ∧
      (i / img.width = j / img.width + 1 ∨ j / img.width = i / img.width + 1)) ∨
   (i / img.width = j / img.width ∧
      (i % img.width = j % img.width + 1 ∨ j % img.width = i % img.width + 1)))

/-- 4-connected foreground reachability. -/
def Reach (img : ImageData) : ℕ → ℕ → Prop := Relation.ReflTransGen (Adj img)

/-- `l` enumerates (without duplicates) the 4-connected foreground
component of pixel `s`. -/
def componentEnum (img : ImageData) (s : ℕ) (l : List ℕ) : Prop :=
  l.Nodup ∧ ∀ j, j ∈ l ↔ Reach img s j

/-- The four coordinates pushed when pixel `j` is marked, in pop order. -/
def idxNbrs (img : ImageData) (j : ℕ) : List (ℤ × ℤ) :=
  [(((j % img.width : ℕ) : ℤ), ((j / img.width : ℕ) : ℤ) - 1),
   (((j % img.width : ℕ) : ℤ), ((j / img.width : ℕ) : ℤ) + 1),
   (((j % img.width : ℕ) : ℤ) - 1, ((j / img.width : ℕ) : ℤ)),
   (((j % img.width : ℕ) : ℤ) + 1, ((j / img.width : ℕ) : ℤ))]

/-- Loop invariant of `floodFillAux`, relative to the seed entry and the
visited mask `V0` at call time. -/
def FFInv (img : ImageData) (seed : ℤ × ℤ) (V0 : List Bool)
    (stack : List (ℤ × ℤ)) (visited : List Bool) (component : List ℕ) : Prop :=
  visited.length = V0.length ∧
  (∀ i, visited.getD i false = true ↔ (V0.getD i false = true ∨ i ∈ component)) ∧
  component.Nodup ∧
  (∀ i ∈ component,
    Reach img (idxOf img seed) i ∧ i < img.width * img.height ∧ isFg img i) ∧
  (∀ e ∈ stack, e = seed ∨ ∃ j ∈ component, e ∈ idxNbrs img j) ∧
  (∀ j ∈ component, ∀ k, Adj img j k →
    (visited.getD k false = true ∨ ∃ e ∈ stack, inB img e ∧ idxOf img e = k)) ∧
  (idxOf img seed ∈ component ∨ seed ∈ stack)

/-- Invariant of the `removeSpeckles` scan state `(visited, cleaned)`. -/
def RSInv (img : ImageData) (minArea : ℚ) (st : List Bool × List ℕ) : Prop :=
  st.1.length = img.width * img.height ∧
  (∀ j, st.1.getD j false = true → j < img.width * img.height ∧ isFg img j) ∧
  (∀ j k, st.1.getD j false = true → Adj img j k → st.1.getD k false = true) ∧
  st.2.length = img.data.length ∧
  (∀ n, st.2.getD n 999 = img.data.getD n 999 ∨
    (n % 4 < 3 ∧ n / 4 < img.width * img.height ∧ isFg img (n / 4) ∧
      st.2.getD n 999 = 255 ∧
      ∃ l, componentEnum img (n / 4) l ∧ (l.length : ℚ) < minArea)) ∧
  (∀ j, st.1.getD j false = true →
    (∃ l, componentEnum img j l ∧ (l.length : ℚ) < minArea) →
    ∀ k, k < 3 → st.2.getD (j * 4 + k) 999 = 255)

/-- A 2×2 bitmap with a single foreground pixel at the origin. -/
def speckBitmap : ImageData :=
  mkBitmap 2 2 fun x y => if x = 0 ∧ y = 0 then 0 else 255

/-- The frame/effect property claimed for `removeSpeckles`: same dimensions
and buffer length; alpha bytes unchanged; background pixels unchanged;
foreground pixels of 4-connected components of size ≥ `minArea` unchanged;
R/G/B bytes of foreground pixels in components of size < `minArea` set
to 255; and every changed byte is an R/G/B byte of such a small-component
foreground pixel, set to 255. -/
def speckleSpec (img : ImageData) (minArea : ℚ) (out : ImageData) : Prop :=
  out.width = img.width ∧ out.height = img.height ∧
  out.data.length = img.data.length ∧
  (∀ n, n % 4 = 3 → out.data.getD n 999 = img.data.getD n 999) ∧
  (∀ j, isBg img j → ∀ k, k < 4 →
    out.data.getD (j * 4 + k) 999 = img.data.getD (j * 4 + k) 999) ∧
  (∀ j l, componentEnum img j l → minArea ≤ (l.length : ℚ) → ∀ k, k < 4 →
    out.data.getD (j * 4 + k) 999 = img.data.getD (j * 4 + k) 999) ∧
  (∀ j l, j < img.width * img.height → isFg img j → componentEnum img j l →
    (l.length : ℚ) < minArea → ∀ k, k < 3 →
    out.data.getD (j * 4 + k) 999 = 255) ∧
  (∀ n, out.data.getD n 999 ≠ img.data.getD n 999 →
    n % 4 < 3 ∧ n / 4 < img.width * img.height ∧ isFg img (n / 4) ∧
    out.data.getD n 999 = 255 ∧
    ∃ l, componentEnum img (n / 4) l ∧ (l.length : ℚ) < minArea)

/-! ## Theorems: geometry validator -/

theorem sap_cons_cons (p q : Point) (l : List Point) :
    sap (p :: q :: l) = (q.x - p.x) * (q.y + p.y) + sap (q :: l) := rfl

theorem sap_concat (l : List Point) (x : Point) :
    sap (l ++ [x]) =
      sap l + (match l.getLast? with
               | none => 0
               | some p => (x.x - p.x) * (x.y + p.y)) := by
  induction l with
  | nil => simp [sap]
  | cons a l ih =>
    cases l with
    | nil => simp [sap]
    | cons b m =>
      have hshape : ((a :: b :: m) ++ [x]) = a :: b :: (m ++ [x]) := rfl
      rw [hshape, sap_cons_cons a b (m ++ [x])]
      have hih : sap (b :: (m ++ [x])) = sap (b :: m) +
          (match (b :: m).getLast? with
           | none => 0
           | some p => (x.x - p.x) * (x.y + p.y)) := ih
      rw [hih, sap_cons_cons a b m, List.getLast?_cons_cons]
      ring

theorem sap_reverse (l : List Point) : sap l.reverse = - sap l := by
  induction l with
  | nil => simp [sap]
  | cons a l ih =>
    cases l with
    | nil => simp [sap]
    | cons b m =>
      have hrev : (a :: b :: m).reverse = (b :: m).reverse ++ [a] := by
        simp
      rw [hrev, sap_concat, ih]
      have hlast : (b :: m).reverse.getLast? = some b := by
        rw [List.getLast?_reverse]
        rfl
      rw [hlast, sap_cons_cons]
      ring

theorem calculateSignedArea_reverse (l : List Point) :
    calculateSignedArea l.reverse = - calculateSignedArea l := by
  unfold calculateSignedArea
  rw [List.length_reverse]
  by_cases h : l.length < 3
  · simp [h]
  · simp [h, sap_reverse]
    ring

theorem csa_ensureCounterClockwise_nonpos (l : List Point) :
    calculateSignedArea (ensureCounterClockwise l) ≤ 0 := by
  unfold ensureCounterClockwise
  by_cases h3 : l.length < 3
  · simp [h3, calculateSignedArea]
  · by_cases hpos : 0 < calculateSignedArea l
    · simp [h3, hpos, calculateSignedArea_reverse]
      linarith
    · simp [h3, hpos]
      linarith [not_lt.mp hpos]

theorem csa_ensureClockwise_nonneg (l : List Point) :
    0 ≤ calculateSignedArea (ensureClockwise l) := by
  unfold ensureClockwise
  by_cases h3 : l.length < 3
  · simp [h3, calculateSignedArea]
  · by_cases hneg : calculateSignedArea l < 0
    · simp [h3, hneg, calculateSignedArea_reverse]
      linarith
    · simp [h3, hneg]
      linarith [not_lt.mp hneg]

/-- C3 counterexample: on a degenerate collinear polygon, with the
collaborator throwing (fallback path), `validateGeometry` emits a polygon
whose exterior signed area is 0, not < 0. -/
theorem validateGeometry_strict_ccw_cx :
    ¬ (∀ p ∈ validateGeometry clipThrow [collinearPoly],
        calculateSignedArea p.exterior < 0) := by
  with_unfolding_all decide

/-- C3 (amended): every polygon emitted by `validateGeometry` either is
converted collaborator output (emitted verbatim, no re-orientation), or has
exterior signed area ≤ 0 and every hole signed area ≥ 0 under the
convention `area = Σ(x[i+1]-x[i])·(y[i+1]+y[i])/2`. -/
theorem validateGeometry_winding (clip : MPolygon → Option (List MPolygon))
    (polygons : List Polygon) :
    ∀ p ∈ validateGeometry clip polygons,
      (∃ fixed, fromMartinezFirst fixed = some p ∧
        ∃ q, clip (toMartinez q) = some fixed) ∨
      (calculateSignedArea p.exterior ≤ 0 ∧
        ∀ h ∈ p.holes, 0 ≤ calculateSignedArea h) := by
  intro p hp
  obtain ⟨a, _, hpa⟩ := List.mem_filterMap.mp hp
  unfold processPolygon at hpa
  split_ifs at hpa
  unfold fixSelfIntersections at hpa
  cases hc : clip (toMartinez (orientPolygon a)) with
  | none =>
    rw [hc] at hpa
    right
    obtain rfl : orientPolygon a = p := by simpa using hpa
    constructor
    · exact csa_ensureCounterClockwise_nonpos _
    · intro h hh
      obtain ⟨h', _, rfl⟩ := List.mem_map.mp hh
      exact csa_ensureClockwise_nonneg _
  | some fixed =>
    rw [hc] at hpa
    left
    exact ⟨fixed, hpa, orientPolygon a, hc⟩

/-- C3 witness: the amended statement instantiated on a concrete run
(throwing collaborator, collinear polygon). -/
theorem validateGeometry_winding_witness :
    (⟨[⟨0, 0⟩, ⟨2, 2⟩, ⟨4, 4⟩, ⟨0, 0⟩], []⟩ : Polygon) ∈
        validateGeometry clipThrow [collinearPoly] ∧
      ((∃ fixed, fromMartinezFirst fixed =
            some (⟨[⟨0, 0⟩, ⟨2, 2⟩, ⟨4, 4⟩, ⟨0, 0⟩], []⟩ : Polygon) ∧
          ∃ q, clipThrow (toMartinez q) = some fixed) ∨
        (calculateSignedArea (⟨[⟨0, 0⟩, ⟨2, 2⟩, ⟨4, 4⟩, ⟨0, 0⟩], []⟩ : Polygon).exterior ≤ 0 ∧
          ∀ h ∈ (⟨[⟨0, 0⟩, ⟨2, 2⟩, ⟨4, 4⟩, ⟨0, 0⟩], []⟩ : Polygon).holes,
            0 ≤ calculateSignedArea h)) :=
  ⟨by with_unfolding_all decide,
   validateGeometry_winding clipThrow [collinearPoly] _ (by with_unfolding_all decide)⟩

/-- C4 counterexample: a ring whose first and last points differ by exactly
0.001 (not more) on the x axis; the claim predicts it is returned
unchanged, but `ensureClosedRing` appends a closing point. -/
theorem ensureClosedRing_boundary_cx :
    ¬ (tolerance < |(0 : ℚ) - 1 / 1000| ∨ tolerance < |(0 : ℚ) - 0|) ∧
      ensureClosedRing boundaryRing ≠ boundaryRing := by
  constructor
  · with_unfolding_all decide
  · with_unfolding_all decide

/-- C4 (amended): for rings of ≥3 points, `ensureClosedRing` appends a copy
of the first point iff first and last differ by at least 0.001 (0.001 or
more) on some axis; otherwise the ring is returned unchanged. -/
theorem ensureClosedRing_spec (r : List Point) (hr : 3 ≤ r.length) :
    (tolerance ≤ |(r.headD default).x - (r.getLastD default).x| ∨
        tolerance ≤ |(r.headD default).y - (r.getLastD default).y| →
      ensureClosedRing r = r ++ [⟨(r.headD default).x, (r.headD default).y⟩]) ∧
    (|(r.headD default).x - (r.getLastD default).x| < tolerance ∧
        |(r.headD default).y - (r.getLastD default).y| < tolerance →
      ensureClosedRing r = r) := by
  have h3 : ¬ r.length < 3 := by omega
  constructor
  · intro hfar
    unfold ensureClosedRing
    rw [if_neg h3, if_neg]
    push_neg
    rcases hfar with hx | hy
    · intro hxlt
      exact absurd hxlt (not_lt.mpr hx)
    · intro _
      exact hy
  · intro hclose
    unfold ensureClosedRing
    rw [if_neg h3, if_pos hclose]

/-- C4 witness: the amended statement applied at the boundary ring, where
the x-axis difference is exactly the tolerance and so the closing point is
appended. -/
theorem ensureClosedRing_spec_witness :
    ensureClosedRing boundaryRing =
      boundaryRing ++
        [⟨(boundaryRing.headD default).x, (boundaryRing.headD default).y⟩] :=
  (ensureClosedRing_spec boundaryRing (by decide)).1 (by with_unfolding_all decide)

/-- C5: behaviour of `validateGeometry` at the self-intersection repair
step, for a polygon that survives to that step: an empty collaborator
result discards the polygon, a collaborator failure keeps the pre-repair
(closed, deduplicated, oriented) polygon unmodified, and in both cases the
rest of the batch is processed exactly as without that polygon. -/
theorem validateGeometry_repair_paths (clip : MPolygon → Option (List MPolygon))
    (l1 l2 : List Polygon) (pre : Polygon)
    (h1 : 3 ≤ pre.exterior.length)
    (h2 : 3 ≤ (removeDuplicatePoints (ensureClosedRing pre.exterior)).length) :
    (clip (toMartinez (orientPolygon pre)) = some [] →
      validateGeometry clip (l1 ++ pre :: l2) =
        validateGeometry clip l1 ++ validateGeometry clip l2) ∧
    (clip (toMartinez (orientPolygon pre)) = none →
      validateGeometry clip (l1 ++ pre :: l2) =
        validateGeometry clip l1 ++ orientPolygon pre :: validateGeometry clip l2) := by
  have hn1 : ¬ pre.exterior.length < 3 := by omega
  have hn2 : ¬ (removeDuplicatePoints (ensureClosedRing pre.exterior)).length < 3 := by omega
  constructor
  · intro hc
    unfold validateGeometry
    rw [List.filterMap_append, List.filterMap_cons]
    have hpre : processPolygon clip pre = none := by
      unfold processPolygon
      rw [if_neg hn1, if_neg hn2]
      unfold fixSelfIntersections
      rw [hc]
      rfl
    rw [hpre]
  · intro hc
    unfold validateGeometry
    rw [List.filterMap_append, List.filterMap_cons]
    have hpre : processPolygon clip pre = some (orientPolygon pre) := by
      unfold processPolygon
      rw [if_neg hn1, if_neg hn2]
      unfold fixSelfIntersections
      rw [hc]
    rw [hpre]

/-- C5 witness: both repair-failure paths exercised on a concrete square. -/
theorem validateGeometry_repair_paths_witness :
    (validateGeometry clipEmpty ([] ++ squarePoly :: []) =
      validateGeometry clipEmpty [] ++ validateGeometry clipEmpty []) ∧
    (validateGeometry clipThrow ([] ++ squarePoly :: []) =
      validateGeometry clipThrow [] ++ orientPolygon squarePoly :: validateGeometry clipThrow []) :=
  ⟨(validateGeometry_repair_paths clipEmpty [] [] squarePoly (by decide)
      (by with_unfolding_all decide)).1 rfl,
   (validateGeometry_repair_paths clipThrow [] [] squarePoly (by decide)
      (by with_unfolding_all decide)).2 rfl⟩

/-- C8: `ensureClosedRing` is idempotent. -/
theorem ensureClosedRing_idempotent (r : List Point) :
    ensureClosedRing (ensureClosedRing r) = ensureClosedRing r := by
  by_cases h3 : r.length < 3
  · unfold ensureClosedRing
    simp [h3]
  · unfold ensureClosedRing
    rw [if_neg h3]
    by_cases hclose :
        |(r.headD default).x - (r.getLastD default).x| < tolerance ∧
          |(r.headD default).y - (r.getLastD default).y| < tolerance
    · rw [if_pos hclose, if_neg h3, if_pos hclose]
    · rw [if_neg hclose]
      have hlen : ¬ (r ++ [(⟨(r.headD default).x, (r.headD default).y⟩ : Point)]).length < 3 := by
        rw [List.length_append]
        simp at h3 ⊢
        omega

      rw [if_neg hlen]
      have hne : r ≠ [] := by
        intro h
        rw [h] at h3
        exact h3 (by decide)
      have hhead :
          (r ++ [(⟨(r.headD default).x, (r.headD default).y⟩ : Point)]).headD default =
            r.headD default := by
        cases r with
        | nil => exact absurd rfl hne
        | cons a l => rfl
      have hlast :
          (r ++ [(⟨(r.headD default).x, (r.headD default).y⟩ : Point)]).getLastD default =
            ⟨(r.headD default).x, (r.headD default).y⟩ :=
        List.getLastD_concat _ _ _
      rw [if_pos]
      rw [hhead, hlast]
      constructor
      · simp
        unfold tolerance
        norm_num
      · simp
        unfold tolerance
        norm_num

/-! ## Theorems: rendered-number character sets -/

theorem toDigitsAux_chars (base : ℕ) (P : Char → Prop) (hb : 0 < base)
    (hP : ∀ k, k < base → P (digitChar k)) :
    ∀ fuel n acc, (∀ c ∈ acc, P c) → ∀ c ∈ toDigitsAux base fuel n acc, P c := by
  intro fuel
  induction fuel with
  | zero => intro n acc hacc c hc; exact hacc c hc
  | succ f ih =>
    intro n acc hacc c hc
    unfold toDigitsAux at hc
    by_cases hn : n < base
    · rw [if_pos hn] at hc
      rcases List.mem_cons.mp hc with rfl | hm
      · exact hP n hn
      · exact hacc c hm
    · rw [if_neg hn] at hc
      refine ih (n / base) _ ?_ c hc
      intro c' hc'
      rcases List.mem_cons.mp hc' with rfl | hm
      · exact hP _ (Nat.mod_lt n hb)
      · exact hacc c' hm

theorem decStr_numStr (n : ℕ) : numStrP (decStr n) := by
  intro c hc
  exact toDigitsAux_chars 10 (fun c => numChar c = true) (by norm_num)
    (fun k hk => by interval_cases k <;> decide) (n + 1) n [] (by simp) c hc

theorem hexStr_numStr (n : ℕ) : numStrP (hexStr n) := by
  intro c hc
  exact toDigitsAux_chars 16 (fun c => numChar c = true) (by norm_num)
    (fun k hk => by interval_cases k <;> decide) (n + 1) n [] (by simp) c hc

theorem decStr_digits (n : ℕ) : ∀ c ∈ (decStr n).data, c.isDigit = true := by
  intro c hc
  exact toDigitsAux_chars 10 (fun c => c.isDigit = true) (by norm_num)
    (fun k hk => by interval_cases k <;> decide) (n + 1) n [] (by simp) c hc

theorem numStr_ne {s t : String} (hs : numStrP s) {c : Char} (hct : c ∈ t.data)
    (hc : numChar c = false) : s ≠ t := by
  intro h
  subst h
  simp [hs c hct] at hc

/-- A string containing at least one character impossible in a rendered
number (used for the DXF marker strings). -/
abbrev hasBadChar (m : String) : Prop := ∃ c ∈ m.data, numChar c = false

theorem numStr_not_bad {s : String} (hs : numStrP s) : ¬ hasBadChar s := by
  rintro ⟨c, hc, hcf⟩
  simp [hs c hc] at hcf

theorem padDigits6_chars (fp : ℕ) : ∀ c ∈ padDigits6 fp, numChar c = true := by
  intro c hc
  have hd : ∀ k, k < 16 → numChar (digitChar k) = true := by
    intro k hk
    interval_cases k <;> decide
  simp only [padDigits6, List.mem_cons, List.not_mem_nil, or_false] at hc
  rcases hc with rfl | rfl | rfl | rfl | rfl | rfl <;>
    exact hd _ (lt_of_lt_of_le (Nat.mod_lt _ (by norm_num)) (by norm_num))

theorem padDigits6_digits (fp : ℕ) : ∀ c ∈ padDigits6 fp, c.isDigit = true := by
  intro c hc
  have hd : ∀ k, k < 10 → (digitChar k).isDigit = true := by
    intro k hk
    interval_cases k <;> decide
  simp only [padDigits6, List.mem_cons, List.not_mem_nil, or_false] at hc
  rcases hc with rfl | rfl | rfl | rfl | rfl | rfl <;>
    exact hd _ (Nat.mod_lt _ (by norm_num))

theorem stripTrailingZeros_subset {c : Char} {l : List Char}
    (hc : c ∈ stripTrailingZeros l) : c ∈ l := by
  unfold stripTrailingZeros at hc
  rw [List.mem_reverse] at hc
  have := (List.dropWhile_sublist (l := l.reverse) (fun c => c == '0')).mem hc
  exact List.mem_reverse.mp this

theorem stripTrailingZeros_length (l : List Char) :
    (stripTrailingZeros l).length ≤ l.length := by
  unfold stripTrailingZeros
  rw [List.length_reverse]
  calc (List.dropWhile (fun c => c == '0') l.reverse).length
      ≤ l.reverse.length := (List.dropWhile_sublist _).length_le
    _ = l.length := List.length_reverse l

theorem formatDXFCoordinate_numStr (q : ℚ) : numStrP (formatDXFCoordinate q) := by
  intro c hc
  unfold formatDXFCoordinate at hc
  rw [String.data_append, String.data_append, List.mem_append, List.mem_append] at hc
  rcases hc with (hsign | hint) | htail
  · split_ifs at hsign
    · simp only [show ("-" : String).data = ['-'] from rfl, List.mem_singleton] at hsign
      subst hsign
      decide
    · simp [show ("" : String).data = [] from rfl] at hsign
  · exact decStr_numStr _ c hint
  · split_ifs at htail
    · simp [show ("" : String).data = [] from rfl] at htail
    · rw [String.data_append, List.mem_append] at htail
      rcases htail with hdot | hfrac
      · simp only [show ("." : String).data = ['.'] from rfl, List.mem_singleton] at hdot
        subst hdot
        decide
      · exact padDigits6_chars _ c (stripTrailingZeros_subset hfrac)

theorem dropWhile_not_dot_append {l r : List Char} (hl : ∀ c ∈ l, (c != '.') = true) :
    (l ++ r).dropWhile (fun c => c != '.') = r.dropWhile (fun c => c != '.') := by
  induction l with
  | nil => rfl
  | cons a l ih =>
    have ha := hl a (List.mem_cons_self a l)
    rw [List.cons_append, List.dropWhile_cons, if_pos ha]
    exact ih fun c hc => hl c (List.mem_cons_of_mem a hc)

theorem digit_ne_dot {c : Char} (h : c.isDigit = true) : (c != '.') = true := by
  rw [bne_iff_ne]
  rintro rfl
  exact absurd h (by decide)

/-- C1 counterexample: the DXF writers do not emit every coordinate with
exactly six digits after the decimal point — the coordinate `0` of a
concrete square is emitted as the string `"0"`, whose fractional length is
0, not 6. -/
theorem dxf_six_decimals_cx :
    (generateMinimalDXFLines [squarePoly] false).getD 12 "" = "10" ∧
    (generateMinimalDXFLines [squarePoly] false).getD 13 "" = "0" ∧
    fracLen ((generateMinimalDXFLines [squarePoly] false).getD 13 "") ≠ 6 := by
  refine ⟨?_, ?_, ?_⟩ <;> with_unfolding_all decide

/-- C1 (amended): every coordinate emitted through `formatDXFCoordinate` is
the value rounded to 6 decimal places rendered with at most 6 digits after
the decimal point (trailing fractional zeros, and the point itself when the
fraction is zero, are dropped by `Number(...).toString()`). -/
theorem formatDXFCoordinate_fracLen_le (q : ℚ) :
    fracLen (formatDXFCoordinate q) ≤ 6 := by
  unfold fracLen formatDXFCoordinate
  rw [String.data_append, String.data_append]
  rw [List.append_assoc]
  have hsign : ∀ c ∈ (if (⌊q * 1000000 + 1 / 2⌋ : ℤ) < 0 then "-" else "").data,
      (c != '.') = true := by
    split_ifs <;> intro c hc
    · simp only [show ("-" : String).data = ['-'] from rfl, List.mem_singleton] at hc
      subst hc
      decide
    · simp [show ("" : String).data = [] from rfl] at hc
  rw [dropWhile_not_dot_append hsign,
      dropWhile_not_dot_append (fun c hc => digit_ne_dot (decStr_digits _ c hc))]
  set frac := stripTrailingZeros
      (padDigits6 (⌊q * 1000000 + 1 / 2⌋.natAbs % 1000000)) with hfrac
  by_cases hempty : frac.isEmpty
  · rw [if_pos hempty]
    simp [show ("" : String).data = [] from rfl, List.dropWhile_nil]
  · rw [if_neg hempty]
    rw [String.data_append]
    have hdot : (("." : String).data ++ (⟨frac⟩ : String).data).dropWhile
        (fun c => c != '.') = '.' :: frac := by
      simp [show ("." : String).data = ['.'] from rfl, List.dropWhile_cons]
    rw [hdot]
    simp only [List.drop_succ_cons, List.drop_zero]
    calc frac.length ≤ (padDigits6 _).length := stripTrailingZeros_length _
      _ = 6 := rfl

/-! ## Theorems: DXF entity-block line inventory -/

theorem formatPointPair_numStr (p : Point) : ∀ s ∈ formatPointPair p, numStrP s := by
  intro s hs
  simp only [formatPointPair, List.mem_cons, List.not_mem_nil, or_false] at hs
  rcases hs with rfl | rfl | rfl | rfl
  · decide
  · exact formatDXFCoordinate_numStr _
  · decide
  · exact formatDXFCoordinate_numStr _

theorem not_mem_coords (pts : List Point) (m : String) (hm : hasBadChar m) :
    m ∉ pts.flatMap formatPointPair := by
  intro hmem
  obtain ⟨p, _, hp⟩ := List.mem_flatMap.mp hmem
  exact numStr_not_bad (formatPointPair_numStr p m hp) hm

/-- Literal lines of an LWPOLYLINE entity. -/
def lwLits : List String :=
  ["0", "LWPOLYLINE", "5", "330", "1F", "100", "AcDbEntity", "8", "AcDbPolyline", "90",
   "70", "1"]

/-- Literal lines of a HATCH boundary path. -/
def bpLits : List String := ["92", "93", "1", "72", "94", "97", "0"]

/-- Literal lines of a HATCH entity outside its boundary paths. -/
def hatchLits : List String :=
  ["0", "HATCH", "5", "330", "1F", "100", "AcDbEntity", "8", "62", "7", "AcDbHatch",
   "10", "0.0", "20", "30", "210", "220", "230", "1.0", "2", "SOLID", "70", "1", "71",
   "91", "75", "76", "98"]

theorem not_mem_generateLWPolyline (pts : List Point) (layer : String) (k : ℕ) (m : String)
    (hm : hasBadChar m) (hlits : m ∉ lwLits) (hlayer : m ≠ layer) :
    m ∉ generateLWPolyline pts layer (hexStr k) := by
  intro hmem
  unfold generateLWPolyline at hmem
  split_ifs at hmem with h
  · simp at hmem
  · rcases List.mem_append.mp hmem with h1 | h2
    · simp only [List.mem_cons, List.not_mem_nil, or_false] at h1
      rcases h1 with rfl | rfl | rfl | rfl | rfl | rfl | rfl | rfl | rfl | rfl | rfl | rfl |
        rfl | rfl | rfl | rfl <;>
        first
          | exact hlits (by decide)
          | exact numStr_not_bad (hexStr_numStr _) hm
          | exact numStr_not_bad (decStr_numStr _) hm
          | exact hlayer rfl
    · exact not_mem_coords pts m hm h2

theorem not_mem_generateBoundaryPath (pts : List Point) (flag : ℕ) (m : String)
    (hm : hasBadChar m) (hlits : m ∉ bpLits) :
    m ∉ generateBoundaryPath pts flag := by
  intro hmem
  unfold generateBoundaryPath at hmem
  split_ifs at hmem with h
  · simp at hmem
  · rcases List.mem_append.mp hmem with h1 | h2
    · rcases List.mem_append.mp h1 with h3 | h4
      · simp only [List.mem_cons, List.not_mem_nil, or_false] at h3
        rcases h3 with rfl | rfl | rfl | rfl | rfl | rfl | rfl | rfl <;>
          first
            | exact hlits (by decide)
            | exact numStr_not_bad (decStr_numStr _) hm
      · exact not_mem_coords pts m hm h4
    · simp only [List.mem_cons, List.not_mem_nil, or_false] at h2
      rcases h2 with rfl | rfl <;> exact hlits (by decide)

theorem not_mem_generateHatchEntity (p : Polygon) (layer : String) (k : ℕ) (m : String)
    (hm : hasBadChar m) (hhl : m ∉ hatchLits) (hbp : m ∉ bpLits) (hlayer : m ≠ layer) :
    m ∉ generateHatchEntity p layer (hexStr k) := by
  intro hmem
  unfold generateHatchEntity at hmem
  rcases List.mem_append.mp hmem with h1 | htail
  · rcases List.mem_append.mp h1 with h2 | hflat
    · rcases List.mem_append.mp h2 with h3 | hbpm
      · simp only [List.mem_cons, List.not_mem_nil, or_false] at h3
        rcases h3 with rfl | rfl | rfl | rfl | rfl | rfl | rfl | rfl | rfl | rfl | rfl | rfl |
          rfl | rfl | rfl | rfl | rfl | rfl | rfl | rfl | rfl | rfl | rfl | rfl | rfl | rfl |
          rfl | rfl | rfl | rfl | rfl | rfl | rfl | rfl <;>
          first
            | exact hhl (by decide)
            | exact numStr_not_bad (hexStr_numStr _) hm
            | exact numStr_not_bad (decStr_numStr _) hm
            | exact hlayer rfl
      · exact not_mem_generateBoundaryPath _ _ m hm hbp hbpm
    · obtain ⟨h, _, hh⟩ := List.mem_flatMap.mp hflat
      exact not_mem_generateBoundaryPath _ _ m hm hbp hh
  · simp only [hatchStyleTail, List.mem_cons, List.not_mem_nil, or_false] at htail
    rcases htail with rfl | rfl | rfl | rfl | rfl | rfl | rfl | rfl | rfl | rfl <;>
      exact hhl (by decide)

theorem not_mem_holePolylines (hs : List (List Point)) (c : ℕ) (m : String)
    (hm : hasBadChar m) (hlits : m ∉ lwLits) (hD : m ≠ "VW_CLASS_Detail") :
    m ∉ (holePolylines hs c).1 := by
  induction hs generalizing c with
  | nil => simp [holePolylines]
  | cons h rest ih =>
    intro hmem
    rw [holePolylines] at hmem
    rcases hrec : holePolylines rest (c + 1) with ⟨tl, c'⟩
    rw [hrec] at hmem
    rcases List.mem_append.mp hmem with h1 | h2
    · exact not_mem_generateLWPolyline h _ c m hm hlits hD h1
    · exact ih (c + 1) (by rw [hrec]; exact h2)

theorem not_mem_entityLoop (polys : List Polygon) (c : ℕ) (wf : Bool) (m : String)
    (hm : hasBadChar m) (hlw : m ∉ lwLits) (hhl : m ∉ hatchLits) (hbp : m ∉ bpLits)
    (hD : m ≠ "VW_CLASS_Detail") (hF : m ≠ "VW_CLASS_Fill") :
    m ∉ entityLoop polys c wf := by
  induction polys generalizing c with
  | nil => simp [entityLoop]
  | cons p rest ih =>
    intro hmem
    rw [entityLoop] at hmem
    rcases hrec : holePolylines p.holes (c + 1) with ⟨holesE, c2⟩
    rw [hrec] at hmem
    cases wf with
    | true =>
      simp only [if_pos] at hmem
      rcases List.mem_append.mp hmem with h1 | h4
      · rcases List.mem_append.mp h1 with h2 | h3
        · rcases List.mem_append.mp h2 with hext | hholes
          · exact not_mem_generateLWPolyline _ _ c m hm hlw hD hext
          · exact not_mem_holePolylines p.holes (c + 1) m hm hlw hD (by rw [hrec]; exact hholes)
        · exact not_mem_generateHatchEntity p _ c2 m hm hhl hbp hF h3
      · exact ih (c2 + 1) h4
    | false =>
      simp only [if_neg] at hmem
      rcases List.mem_append.mp hmem with h1 | h4
      · rcases List.mem_append.mp h1 with h2 | h3
        · rcases List.mem_append.mp h2 with hext | hholes
          · exact not_mem_generateLWPolyline _ _ c m hm hlw hD hext
          · exact not_mem_holePolylines p.holes (c + 1) m hm hlw hD (by rw [hrec]; exact hholes)
        · simp at h3
      · exact ih c2 h4

/-! ## Theorems: DXF section structure (C7) -/

theorem sectionDepthOk_append_neutral (l : List String) (rest : List String) (d : ℤ)
    (hd : 0 ≤ d) (hS : "SECTION" ∉ l) (hE : "ENDSEC" ∉ l) :
    sectionDepthOk (l ++ rest) d = sectionDepthOk rest d := by
  induction l with
  | nil => rfl
  | cons a l ih =>
    have ha1 : a ≠ "SECTION" := fun h => hS (h ▸ List.mem_cons_self a l)
    have ha2 : a ≠ "ENDSEC" := fun h => hE (h ▸ List.mem_cons_self a l)
    rw [List.cons_append]
    show (decide (0 ≤ if a = "SECTION" then d + 1 else if a = "ENDSEC" then d - 1 else d) &&
      sectionDepthOk (l ++ rest)
        (if a = "SECTION" then d + 1 else if a = "ENDSEC" then d - 1 else d)) = _
    rw [if_neg ha1, if_neg ha2, decide_eq_true hd, Bool.true_and]
    exact ih (fun h => hS (List.mem_cons_of_mem a h)) (fun h => hE (List.mem_cons_of_mem a h))

/-- C7: for every polygon list (including `[]`) and either `whiteFill`, the
DXF line list (joined into the output string by `generateDXF`) has
SECTION/ENDSEC markers balanced in number and in order (each SECTION closed
by a following ENDSEC), and exactly one EOF marker, which is the final
line of the file. -/
theorem generateDXF_structure (polygons : List Polygon) (whiteFill : Bool) :
    sectionDepthOk (generateDXFLines polygons whiteFill) 0 = true ∧
    List.count "SECTION" (generateDXFLines polygons whiteFill) =
      List.count "ENDSEC" (generateDXFLines polygons whiteFill) ∧
    List.count "EOF" (generateDXFLines polygons whiteFill) = 1 ∧
    (generateDXFLines polygons whiteFill).getLast? = some "EOF" := by
  have hS : "SECTION" ∉ entityLoop polygons 100 whiteFill :=
    not_mem_entityLoop _ _ _ _ (by decide) (by decide) (by decide) (by decide) (by decide)
      (by decide)
  have hE : "ENDSEC" ∉ entityLoop polygons 100 whiteFill :=
    not_mem_entityLoop _ _ _ _ (by decide) (by decide) (by decide) (by decide) (by decide)
      (by decide)
  have hO : "EOF" ∉ entityLoop polygons 100 whiteFill :=
    not_mem_entityLoop _ _ _ _ (by decide) (by decide) (by decide) (by decide) (by decide)
      (by decide)
  refine ⟨?_, ?_, ?_, ?_⟩
  · show sectionDepthOk
      (generateDXFHeader ++ generateDXFTables ++
        (["0", "SECTION", "2", "ENTITIES"] ++ entityLoop polygons 100 whiteFill ++
          ["0", "ENDSEC"]) ++ generateDXFFooter) 0 = true
    have hpre : sectionDepthOk
        (generateDXFHeader ++ generateDXFTables ++
          (["0", "SECTION", "2", "ENTITIES"] ++ entityLoop polygons 100 whiteFill ++
            ["0", "ENDSEC"]) ++ generateDXFFooter) 0 =
        sectionDepthOk
          (entityLoop polygons 100 whiteFill ++ (["0", "ENDSEC"] ++ generateDXFFooter)) 1 := by
      simp only [List.append_assoc]
      rfl
    rw [hpre, sectionDepthOk_append_neutral _ _ 1 (by norm_num) hS hE]
    rfl
  · have hcS : List.count "SECTION" (generateDXFLines polygons whiteFill) = 4 := by
      show List.count "SECTION"
        (generateDXFHeader ++ generateDXFTables ++
          (["0", "SECTION", "2", "ENTITIES"] ++ entityLoop polygons 100 whiteFill ++
            ["0", "ENDSEC"]) ++ generateDXFFooter) = 4
      simp only [List.count_append]
      rw [List.count_eq_zero.mpr hS]
      decide
    have hcE : List.count "ENDSEC" (generateDXFLines polygons whiteFill) = 4 := by
      show List.count "ENDSEC"
        (generateDXFHeader ++ generateDXFTables ++
          (["0", "SECTION", "2", "ENTITIES"] ++ entityLoop polygons 100 whiteFill ++
            ["0", "ENDSEC"]) ++ generateDXFFooter) = 4
      simp only [List.count_append]
      rw [List.count_eq_zero.mpr hE]
      decide
    rw [hcS, hcE]
  · show List.count "EOF"
      (generateDXFHeader ++ generateDXFTables ++
        (["0", "SECTION", "2", "ENTITIES"] ++ entityLoop polygons 100 whiteFill ++
          ["0", "ENDSEC"]) ++ generateDXFFooter) = 1
    simp only [List.count_append]
    rw [List.count_eq_zero.mpr hO]
    decide
  · show (generateDXFHeader ++ generateDXFTables ++
        (["0", "SECTION", "2", "ENTITIES"] ++ entityLoop polygons 100 whiteFill ++
          ["0", "ENDSEC"]) ++ generateDXFFooter).getLast? = some "EOF"
    rw [List.getLast?_append]
    rfl

/-! ## Theorems: DXF entity counts under whiteFill (C6) -/

theorem count_LW_lwpoly (pts : List Point) (k : ℕ) (h3 : 3 ≤ pts.length) :
    List.count "LWPOLYLINE" (generateLWPolyline pts "VW_CLASS_Detail" (hexStr k)) = 1 := by
  unfold generateLWPolyline
  rw [if_neg (by omega), List.count_append]
  rw [List.count_eq_zero.mpr (not_mem_coords pts "LWPOLYLINE" (by decide))]
  have hh : ((hexStr k) == "LWPOLYLINE") = false :=
    beq_eq_false_iff_ne.mpr (numStr_ne (hexStr_numStr k) (c := 'L') (by decide) (by decide))
  have hd : ((decStr pts.length) == "LWPOLYLINE") = false :=
    beq_eq_false_iff_ne.mpr (numStr_ne (decStr_numStr _) (c := 'L') (by decide) (by decide))
  simp [List.count_cons, hh, hd]

theorem count_HATCH_lwpoly (pts : List Point) (layer : String) (k : ℕ)
    (hlayer : "HATCH" ≠ layer) :
    List.count "HATCH" (generateLWPolyline pts layer (hexStr k)) = 0 :=
  List.count_eq_zero.mpr
    (not_mem_generateLWPolyline pts layer k "HATCH" (by decide) (by decide) hlayer)

theorem count_LW_hatch (p : Polygon) (k : ℕ) :
    List.count "LWPOLYLINE" (generateHatchEntity p "VW_CLASS_Fill" (hexStr k)) = 0 :=
  List.count_eq_zero.mpr
    (not_mem_generateHatchEntity p _ k "LWPOLYLINE" (by decide) (by decide) (by decide)
      (by decide))

theorem count_HATCH_hatch (p : Polygon) (k : ℕ) :
    List.count "HATCH" (generateHatchEntity p "VW_CLASS_Fill" (hexStr k)) = 1 := by
  unfold generateHatchEntity
  simp only [List.count_append]
  rw [List.count_eq_zero.mpr (not_mem_generateBoundaryPath p.exterior 2 "HATCH" (by decide)
    (by decide))]
  have hflat : List.count "HATCH" (p.holes.flatMap fun h => generateBoundaryPath h 16) = 0 := by
    refine List.count_eq_zero.mpr fun hmem => ?_
    obtain ⟨h, _, hh⟩ := List.mem_flatMap.mp hmem
    exact not_mem_generateBoundaryPath h 16 "HATCH" (by decide) (by decide) hh
  rw [hflat]
  have hh : ((hexStr k) == "HATCH") = false :=
    beq_eq_false_iff_ne.mpr (numStr_ne (hexStr_numStr k) (c := 'H') (by decide) (by decide))
  have hd : ((decStr (1 + p.holes.length)) == "HATCH") = false :=
    beq_eq_false_iff_ne.mpr (numStr_ne (decStr_numStr _) (c := 'H') (by decide) (by decide))
  simp [List.count_cons, hh, hd, hatchStyleTail]

theorem count_LW_holePolylines (hs : List (List Point)) (c : ℕ)
    (hall : ∀ h ∈ hs, 3 ≤ h.length) :
    List.count "LWPOLYLINE" (holePolylines hs c).1 = hs.length := by
  induction hs generalizing c with
  | nil => simp [holePolylines]
  | cons h rest ih =>
    rw [holePolylines]
    rcases hrec : holePolylines rest (c + 1) with ⟨tl, c'⟩
    show List.count "LWPOLYLINE" (generateLWPolyline h "VW_CLASS_Detail" (hexStr c) ++ tl) =
      (h :: rest).length
    rw [List.count_append, count_LW_lwpoly h c (hall h (List.mem_cons_self h rest))]
    have := ih (c + 1) (fun x hx => hall x (List.mem_cons_of_mem h hx))
    rw [hrec] at this
    rw [this]
    simp only [List.length_cons]
    omega

theorem count_HATCH_holePolylines (hs : List (List Point)) (c : ℕ) :
    List.count "HATCH" (holePolylines hs c).1 = 0 := by
  induction hs generalizing c with
  | nil => simp [holePolylines]
  | cons h rest ih =>
    rw [holePolylines]
    rcases hrec : holePolylines rest (c + 1) with ⟨tl, c'⟩
    show List.count "HATCH" (generateLWPolyline h "VW_CLASS_Detail" (hexStr c) ++ tl) = 0
    rw [List.count_append, count_HATCH_lwpoly h _ c (by decide)]
    have := ih (c + 1)
    rw [hrec] at this
    rw [this]

theorem count_LW_entityLoop (polys : List Polygon) (c : ℕ)
    (hrings : ∀ p ∈ polys, 3 ≤ p.exterior.length ∧ ∀ h ∈ p.holes, 3 ≤ h.length) :
    List.count "LWPOLYLINE" (entityLoop polys c true) =
      (polys.map (fun p => 1 + p.holes.length)).sum := by
  induction polys generalizing c with
  | nil => simp [entityLoop]
  | cons p rest ih =>
    rw [entityLoop]
    rcases hrec : holePolylines p.holes (c + 1) with ⟨holesE, c2⟩
    show List.count "LWPOLYLINE"
      (generateLWPolyline p.exterior "VW_CLASS_Detail" (hexStr c) ++ holesE ++
        generateHatchEntity p "VW_CLASS_Fill" (hexStr c2) ++ entityLoop rest (c2 + 1) true) =
      (List.map (fun p => 1 + p.holes.length) (p :: rest)).sum
    rw [List.count_append, List.count_append, List.count_append]
    rw [count_LW_lwpoly p.exterior c (hrings p (List.mem_cons_self p rest)).1]
    have hholes := count_LW_holePolylines p.holes (c + 1)
      (hrings p (List.mem_cons_self p rest)).2
    rw [hrec] at hholes
    rw [hholes, count_LW_hatch p c2,
      ih (c2 + 1) (fun x hx => hrings x (List.mem_cons_of_mem p hx))]
    simp only [List.map_cons, List.sum_cons]
    omega

theorem count_HATCH_entityLoop (polys : List Polygon) (c : ℕ) :
    List.count "HATCH" (entityLoop polys c true) = polys.length := by
  induction polys generalizing c with
  | nil => simp [entityLoop]
  | cons p rest ih =>
    rw [entityLoop]
    rcases hrec : holePolylines p.holes (c + 1) with ⟨holesE, c2⟩
    show List.count "HATCH"
      (generateLWPolyline p.exterior "VW_CLASS_Detail" (hexStr c) ++ holesE ++
        generateHatchEntity p "VW_CLASS_Fill" (hexStr c2) ++ entityLoop rest (c2 + 1) true) =
      (p :: rest).length
    rw [List.count_append, List.count_append, List.count_append]
    have hholes := count_HATCH_holePolylines p.holes (c + 1)
    rw [hrec] at hholes
    rw [count_HATCH_lwpoly p.exterior _ c (by decide), hholes, count_HATCH_hatch p c2,
      ih (c2 + 1)]
    simp only [List.length_cons]
    omega

/-- C6: with `whiteFill = true` and every ring carrying ≥3 points, the DXF
line list contains exactly `1 + holeCount` LWPOLYLINE entities per polygon
and exactly one HATCH entity per polygon; each HATCH's `91` group value is
`1 + holeCount`, its boundary paths are the exterior path (flag 2) followed
by one path per hole (flag 16), and a boundary path opens with its `92`
flag group. -/
theorem generateDXF_whiteFill_entities (polygons : List Polygon)
    (hrings : ∀ p ∈ polygons, 3 ≤ p.exterior.length ∧ ∀ h ∈ p.holes, 3 ≤ h.length) :
    List.count "LWPOLYLINE" (generateDXFLines polygons true) =
      (polygons.map (fun p => 1 + p.holes.length)).sum ∧
    List.count "HATCH" (generateDXFLines polygons true) = polygons.length ∧
    (∀ p : Polygon, ∀ layer handle : String,
      (generateHatchEntity p layer handle).getD 32 "" = "91" ∧
      (generateHatchEntity p layer handle).getD 33 "" = decStr (1 + p.holes.length) ∧
      List.drop 34 (generateHatchEntity p layer handle) =
        generateBoundaryPath p.exterior 2 ++
          p.holes.flatMap (fun h => generateBoundaryPath h 16) ++ hatchStyleTail) ∧
    (∀ r : List Point, ∀ flag : ℕ, 3 ≤ r.length →
      List.take 2 (generateBoundaryPath r flag) = ["92", decStr flag]) := by
  refine ⟨?_, ?_, ?_, ?_⟩
  · show List.count "LWPOLYLINE"
      (generateDXFHeader ++ generateDXFTables ++
        (["0", "SECTION", "2", "ENTITIES"] ++ entityLoop polygons 100 true ++
          ["0", "ENDSEC"]) ++ generateDXFFooter) = _
    simp only [List.count_append]
    rw [count_LW_entityLoop polygons 100 hrings]
    have h1 : List.count "LWPOLYLINE" generateDXFHeader = 0 := by decide
    have h2 : List.count "LWPOLYLINE" generateDXFTables = 0 := by decide
    have h3 : List.count "LWPOLYLINE" (["0", "SECTION", "2", "ENTITIES"] : List String) = 0 := by
      decide
    have h4 : List.count "LWPOLYLINE" (["0", "ENDSEC"] : List String) = 0 := by decide
    have h5 : List.count "LWPOLYLINE" generateDXFFooter = 0 := by decide
    omega
  · show List.count "HATCH"
      (generateDXFHeader ++ generateDXFTables ++
        (["0", "SECTION", "2", "ENTITIES"] ++ entityLoop polygons 100 true ++
          ["0", "ENDSEC"]) ++ generateDXFFooter) = _
    simp only [List.count_append]
    rw [count_HATCH_entityLoop polygons 100]
    have h1 : List.count "HATCH" generateDXFHeader = 0 := by decide
    have h2 : List.count "HATCH" generateDXFTables = 0 := by decide
    have h3 : List.count "HATCH" (["0", "SECTION", "2", "ENTITIES"] : List String) = 0 := by
      decide
    have h4 : List.count "HATCH" (["0", "ENDSEC"] : List String) = 0 := by decide
    have h5 : List.count "HATCH" generateDXFFooter = 0 := by decide
    omega
  · intro p layer handle
    refine ⟨rfl, rfl, ?_⟩
    show List.drop 34
      (["0", "HATCH", "5", handle, "330", "1F", "100", "AcDbEntity", "8", layer, "62", "7",
        "100", "AcDbHatch", "10", "0.0", "20", "0.0", "30", "0.0", "210", "0.0", "220", "0.0",
        "230", "1.0", "2", "SOLID", "70", "1", "71", "0", "91",
        decStr (1 + p.holes.length)]
      ++ generateBoundaryPath p.exterior 2
      ++ p.holes.flatMap (fun h => generateBoundaryPath h 16)
      ++ hatchStyleTail) = _
    simp only [List.append_assoc]
    rw [List.drop_append_of_le_length (by simp)]
    simp
  · intro r flag h3
    unfold generateBoundaryPath
    rw [if_neg (by omega)]
    rfl

/-- C6 witness: the counts instantiated on one polygon with one hole (2
LWPOLYLINEs, 1 HATCH, boundary-path count group `2`). -/
theorem generateDXF_whiteFill_entities_witness :
    List.count "LWPOLYLINE" (generateDXFLines [squareWithHole] true) =
      (([squareWithHole] : List Polygon).map (fun p => 1 + p.holes.length)).sum ∧
    List.count "HATCH" (generateDXFLines [squareWithHole] true) =
      ([squareWithHole] : List Polygon).length ∧
    (∀ p : Polygon, ∀ layer handle : String,
      (generateHatchEntity p layer handle).getD 32 "" = "91" ∧
      (generateHatchEntity p layer handle).getD 33 "" = decStr (1 + p.holes.length) ∧
      List.drop 34 (generateHatchEntity p layer handle) =
        generateBoundaryPath p.exterior 2 ++
          p.holes.flatMap (fun h => generateBoundaryPath h 16) ++ hatchStyleTail) ∧
    (∀ r : List Point, ∀ flag : ℕ, 3 ≤ r.length →
      List.take 2 (generateBoundaryPath r flag) = ["92", decStr flag]) :=
  generateDXF_whiteFill_entities [squareWithHole] (by decide)

/-! ## Theorems: contour extraction on the ring bitmap (C2)

On the 7×7 ring bitmap, `findHoles` seeds `traceContour` at the white
center `(3,3)`.  The source does not invert foreground/background for hole
traces, so the trace immediately steps onto the black ring and cycles among
black pixels, never returning to the white start pixel and never running
out of neighbors: the `do … while` loop runs forever.  With fuel, this is
`none` for every fuel. -/

theorem ringHoleTrace_none (fuel : ℕ) :
    (∀ pts visited, traceAux ringBitmap 3 3 fuel 3 3 0 pts visited = none) ∧
    (∀ pts visited, traceAux ringBitmap 3 3 fuel 3 2 6 pts visited = none) ∧
    (∀ pts visited, traceAux ringBitmap 3 3 fuel 2 2 4 pts visited = none) ∧
    (∀ pts visited, traceAux ringBitmap 3 3 fuel 2 3 2 pts visited = none) ∧
    (∀ pts visited, traceAux ringBitmap 3 3 fuel 3 4 1 pts visited = none) ∧
    (∀ pts visited, traceAux ringBitmap 3 3 fuel 4 3 7 pts visited = none) ∧
    (∀ pts visited, traceAux ringBitmap 3 3 fuel 3 2 5 pts visited = none) ∧
    (∀ pts visited, traceAux ringBitmap 3 3 fuel 2 3 3 pts visited = none) := by
  induction fuel with
  | zero =>
    exact ⟨fun _ _ => rfl, fun _ _ => rfl, fun _ _ => rfl, fun _ _ => rfl, fun _ _ => rfl,
      fun _ _ => rfl, fun _ _ => rfl, fun _ _ => rfl⟩
  | succ f ih =>
    obtain ⟨h1, h2, h3, h4, h5, h6, h7, h8⟩ := ih
    have e1 : findNext ringBitmap 3 3 0 = some (3, 2, 6) := by decide
    have e2 : findNext ringBitmap 3 2 6 = some (2, 2, 4) := by decide
    have e3 : findNext ringBitmap 2 2 4 = some (2, 3, 2) := by decide
    have e4 : findNext ringBitmap 2 3 2 = some (3, 4, 1) := by decide
    have e5 : findNext ringBitmap 3 4 1 = some (4, 3, 7) := by decide
    have e6 : findNext ringBitmap 4 3 7 = some (3, 2, 5) := by decide
    have e7 : findNext ringBitmap 3 2 5 = some (2, 3, 3) := by decide
    have e8 : findNext ringBitmap 2 3 3 = some (3, 4, 1) := by decide
    refine ⟨?_, ?_, ?_, ?_, ?_, ?_, ?_, ?_⟩ <;> intro pts visited
    · simp only [traceAux, e1]
      rw [if_neg (by rintro ⟨-, hy, -⟩; exact absurd hy (by decide))]
      exact h2 _ _
    · simp only [traceAux, e2]
      rw [if_neg (by rintro ⟨hx, -, -⟩; exact absurd hx (by decide))]
      exact h3 _ _
    · simp only [traceAux, e3]
      rw [if_neg (by rintro ⟨hx, -, -⟩; exact absurd hx (by decide))]
      exact h4 _ _
    · simp only [traceAux, e4]
      rw [if_neg (by rintro ⟨-, hy, -⟩; exact absurd hy (by decide))]
      exact h5 _ _
    · simp only [traceAux, e5]
      rw [if_neg (by rintro ⟨hx, -, -⟩; exact absurd hx (by decide))]
      exact h6 _ _
    · simp only [traceAux, e6]
      rw [if_neg (by rintro ⟨-, hy, -⟩; exact absurd hy (by decide))]
      exact h7 _ _
    · simp only [traceAux, e7]
      rw [if_neg (by rintro ⟨hx, -, -⟩; exact absurd hx (by decide))]
      exact h8 _ _
    · simp only [traceAux, e8]
      rw [if_neg (by rintro ⟨-, hy, -⟩; exact absurd hy (by decide))]
      exact h5 _ _

theorem holeStep_black (fuel : ℕ) (st : List Contour × List Bool) (pos : ℕ × ℕ)
    (h : rawPixel ringBitmap pos.1 pos.2 = 0) :
    holeStep ringBitmap fuel pos st = some st := by
  simp only [holeStep]
  by_cases hv : st.2.getD (pos.2 * ringBitmap.width + pos.1) false = true
  · rw [if_pos hv]
  · rw [if_neg hv, if_pos (by rw [h]; decide)]

theorem holeStep_center (fuel : ℕ) (cs : List Contour) :
    holeStep ringBitmap fuel (3, 3) (cs, List.replicate 49 false) = none := by
  have htr : traceContour ringBitmap fuel 3 3 (List.replicate 49 false) = none := by
    have := (ringHoleTrace_none fuel).1 [] (List.replicate 49 false)
    unfold traceContour
    simpa using this
  simp only [holeStep]
  rw [if_neg (by decide), if_neg (by decide), if_pos (by decide), htr]

theorem scanFold_skip {step : (ℕ × ℕ) → (List Contour × List Bool) →
      Option (List Contour × List Bool)} {p : ℕ × ℕ} (rest : List (ℕ × ℕ))
    {st : List Contour × List Bool} (h : step p st = some st) :
    scanFold step (p :: rest) st = scanFold step rest st := by
  simp [scanFold, h]

theorem findHoles_ring_none (fuel : ℕ) (cs : List Contour) :
    findHoles ringBitmap fuel cs = none := by
  unfold findHoles
  rw [show ringBitmap.width = 7 from rfl, show ringBitmap.height = 7 from rfl,
    show holePositions 7 7 =
      [(1, 1), (2, 1), (3, 1), (4, 1), (5, 1), (1, 2), (2, 2), (3, 2), (4, 2), (5, 2),
       (1, 3), (2, 3), (3, 3), (4, 3), (5, 3), (1, 4), (2, 4), (3, 4), (4, 4), (5, 4),
       (1, 5), (2, 5), (3, 5), (4, 5), (5, 5)] from rfl,
    show List.replicate (7 * 7) false = List.replicate 49 false from rfl]
  rw [scanFold_skip _ (holeStep_black fuel _ (1, 1) (by decide)),
    scanFold_skip _ (holeStep_black fuel _ (2, 1) (by decide)),
    scanFold_skip _ (holeStep_black fuel _ (3, 1) (by decide)),
    scanFold_skip _ (holeStep_black fuel _ (4, 1) (by decide)),
    scanFold_skip _ (holeStep_black fuel _ (5, 1) (by decide)),
    scanFold_skip _ (holeStep_black fuel _ (1, 2) (by decide)),
    scanFold_skip _ (holeStep_black fuel _ (2, 2) (by decide)),
    scanFold_skip _ (holeStep_black fuel _ (3, 2) (by decide)),
    scanFold_skip _ (holeStep_black fuel _ (4, 2) (by decide)),
    scanFold_skip _ (holeStep_black fuel _ (5, 2) (by decide)),
    scanFold_skip _ (holeStep_black fuel _ (1, 3) (by decide)),
    scanFold_skip _ (holeStep_black fuel _ (2, 3) (by decide))]
  rw [scanFold, holeStep_center fuel cs]
  rfl

/-- C2: on the 7×7 bitmap whose foreground is a 5×5 ring with a 1×1
background center, `extractContours` does not terminate for any fuel — in
particular it does not return 1 contour with 1 hole.  `findHoles` seeds
`traceContour` at the white center without inverting the
foreground/background roles, and the trace cycles forever among the black
pixels `(3,2) → (2,3) → (3,4) → (4,3) → (3,2) → …`, never returning to its
white start pixel and always finding a next black neighbor. -/
theorem extractContours_ring_diverges (fuel : ℕ) :
    extractContours ringBitmap fuel = none := by
  unfold extractContours
  cases houter : scanFold (outerStep ringBitmap fuel)
      (scanPositions ringBitmap.width ringBitmap.height)
      ([], List.replicate (ringBitmap.width * ringBitmap.height) false) with
  | none => rfl
  | some st => simp [findHoles_ring_none fuel st.1]

/-! ## Theorems: contour hierarchy invariants (C9) -/

theorem outerStep_inv (img : ImageData) (fuel : ℕ) (p : ℕ × ℕ)
    (st st1 : List Contour × List Bool) (hstep : outerStep img fuel p st = some st1)
    (hinv : ∀ c ∈ st.1, c.isHole = false ∧ c.parent = -1) :
    ∀ c ∈ st1.1, c.isHole = false ∧ c.parent = -1 := by
  simp only [outerStep] at hstep
  split_ifs at hstep with h1 h2
  · injection hstep with h
    subst h
    exact hinv
  · cases htr : traceContour img fuel p.1 p.2 st.2 with
    | none => rw [htr] at hstep; simp at hstep
    | some pr =>
      rw [htr] at hstep
      rcases pr with ⟨pts, visited'⟩
      dsimp only at hstep
      split_ifs at hstep with h3
      · injection hstep with h
        subst h
        intro c hc
        rcases List.mem_append.mp hc with hc1 | hc2
        · exact hinv c hc1
        · simp only [List.mem_singleton] at hc2
          subst hc2
          exact ⟨rfl, rfl⟩
      · injection hstep with h
        subst h
        exact hinv
  · injection hstep with h
    subst h
    exact hinv

theorem scanFold_outer_inv (img : ImageData) (fuel : ℕ) :
    ∀ (ps : List (ℕ × ℕ)) (st st' : List Contour × List Bool),
      scanFold (outerStep img fuel) ps st = some st' →
      (∀ c ∈ st.1, c.isHole = false ∧ c.parent = -1) →
      ∀ c ∈ st'.1, c.isHole = false ∧ c.parent = -1 := by
  intro ps
  induction ps with
  | nil =>
    intro st st' h hinv
    obtain rfl : st = st' := by simpa [scanFold] using h
    exact hinv
  | cons p rest ih =>
    intro st st' h hinv
    rw [scanFold] at h
    cases hstep : outerStep img fuel p st with
    | none => rw [hstep] at h; simp at h
    | some st1 =>
      rw [hstep] at h
      simp only [Option.some_bind] at h
      exact ih st1 st' h (outerStep_inv img fuel p st st1 hstep hinv)

theorem holePhaseRel_refl (cs : List Contour) : holePhaseRel cs cs :=
  ⟨rfl, fun _ => ⟨rfl, rfl, rfl, [], by simp⟩⟩

theorem holePhaseRel_trans {a b c : List Contour} (h1 : holePhaseRel a b)
    (h2 : holePhaseRel b c) : holePhaseRel a c := by
  obtain ⟨hl1, hf1⟩ := h1
  obtain ⟨hl2, hf2⟩ := h2
  refine ⟨hl2.trans hl1, fun i => ?_⟩
  obtain ⟨p1, i1, q1, e1, he1⟩ := hf1 i
  obtain ⟨p2, i2, q2, e2, he2⟩ := hf2 i
  exact ⟨p2.trans p1, i2.trans i1, q2.trans q1, e1 ++ e2, by rw [he2, he1, List.append_assoc]⟩

theorem addHoleAt_rel (cs : List Contour) (n : ℕ) (pts : List Point) :
    holePhaseRel cs (addHoleAt cs n pts) := by
  induction cs generalizing n with
  | nil => exact holePhaseRel_refl []
  | cons c rest ih =>
    cases n with
    | zero =>
      refine ⟨rfl, fun i => ?_⟩
      cases i with
      | zero => exact ⟨rfl, rfl, rfl, [pts], rfl⟩
      | succ i =>
        rw [show addHoleAt (c :: rest) 0 pts =
            { c with holes := c.holes ++ [pts] } :: rest from rfl,
          List.getD_cons_succ, List.getD_cons_succ]
        exact ⟨rfl, rfl, rfl, [], by simp⟩
    | succ n =>
      obtain ⟨hlen, hfields⟩ := ih n
      refine ⟨?_, fun i => ?_⟩
      · show (c :: addHoleAt rest n pts).length = (c :: rest).length
        simp [hlen]
      · cases i with
        | zero =>
          rw [show addHoleAt (c :: rest) (n + 1) pts = c :: addHoleAt rest n pts from rfl,
            List.getD_cons_zero, List.getD_cons_zero]
          exact ⟨rfl, rfl, rfl, [], by simp⟩
        | succ i =>
          rw [show addHoleAt (c :: rest) (n + 1) pts = c :: addHoleAt rest n pts from rfl,
            List.getD_cons_succ, List.getD_cons_succ]
          exact hfields i

theorem holeStep_rel (img : ImageData) (fuel : ℕ) (p : ℕ × ℕ)
    (st st1 : List Contour × List Bool) (hstep : holeStep img fuel p st = some st1) :
    holePhaseRel st.1 st1.1 := by
  simp only [holeStep] at hstep
  split_ifs at hstep with h1 h2 h3
  · injection hstep with h
    subst h
    exact holePhaseRel_refl _
  · injection hstep with h
    subst h
    exact holePhaseRel_refl _
  · cases htr : traceContour img fuel p.1 p.2 st.2 with
    | none => rw [htr] at hstep; simp at hstep
    | some pr =>
      rw [htr] at hstep
      rcases pr with ⟨pts, visited'⟩
      dsimp only at hstep
      split_ifs at hstep with h4
      · cases hfind : findContainingContour st.1 (pts.headD default) with
        | some parentIndex =>
          rw [hfind] at hstep
          injection hstep with h
          subst h
          exact addHoleAt_rel st.1 parentIndex pts
        | none =>
          rw [hfind] at hstep
          injection hstep with h
          subst h
          exact holePhaseRel_refl _
      · injection hstep with h
        subst h
        exact holePhaseRel_refl _
  · injection hstep with h
    subst h
    exact holePhaseRel_refl _

theorem scanFold_hole_rel (img : ImageData) (fuel : ℕ) :
    ∀ (ps : List (ℕ × ℕ)) (st st' : List Contour × List Bool),
      scanFold (holeStep img fuel) ps st = some st' → holePhaseRel st.1 st'.1 := by
  intro ps
  induction ps with
  | nil =>
    intro st st' h
    obtain rfl : st = st' := by simpa [scanFold] using h
    exact holePhaseRel_refl _
  | cons p rest ih =>
    intro st st' h
    rw [scanFold] at h
    cases hstep : holeStep img fuel p st with
    | none => rw [hstep] at h; simp at h
    | some st1 =>
      rw [hstep] at h
      simp only [Option.some_bind] at h
      exact holePhaseRel_trans (holeStep_rel img fuel p st st1 hstep) (ih st1 st' h)

theorem holePhaseRel_fields {cs cs' : List Contour} (hrel : holePhaseRel cs cs')
    (hout : ∀ c ∈ cs, c.isHole = false ∧ c.parent = -1) :
    ∀ c ∈ cs', c.isHole = false ∧ c.parent = -1 := by
  intro c hc
  obtain ⟨hlen, hfields⟩ := hrel
  obtain ⟨i, hi, rfl⟩ := List.mem_iff_getElem.mp hc
  have hgd : cs'[i] = cs'.getD i default := (List.getD_eq_getElem _ _ hi).symm
  have hmem : cs.getD i default ∈ cs := by
    have hi' : i < cs.length := by omega
    rw [List.getD_eq_getElem _ _ hi']
    exact List.getElem_mem hi'
  obtain ⟨_, hih, hip, _⟩ := hfields i
  rw [hgd]
  exact ⟨hih.trans (hout _ hmem).1, hip.trans (hout _ hmem).2⟩

/-- C9: whenever `extractContours` returns, every returned contour has
`isHole = false` and `parent = -1`; the hole scan never adds or removes
entries of the contour list (holes are only appended to the hole list of a
containing contour, and a hole ring contained in no contour is dropped),
so the returned list is the main-scan contour list with possibly extended
hole lists. -/
theorem extractContours_hierarchy (fuel : ℕ) (img : ImageData) (res : List Contour)
    (h : extractContours img fuel = some res) :
    (∀ c ∈ res, c.isHole = false ∧ c.parent = -1) ∧
    ∃ st : List Contour × List Bool,
      scanFold (outerStep img fuel) (scanPositions img.width img.height)
        ([], List.replicate (img.width * img.height) false) = some st ∧
      holePhaseRel st.1 res := by
  unfold extractContours at h
  cases houter : scanFold (outerStep img fuel) (scanPositions img.width img.height)
      ([], List.replicate (img.width * img.height) false) with
  | none => rw [houter] at h; simp at h
  | some st =>
    rw [houter] at h
    simp only [Option.some_bind] at h
    unfold findHoles at h
    cases hscan : scanFold (holeStep img fuel) (holePositions img.width img.height)
        (st.1, List.replicate (img.width * img.height) false) with
    | none => rw [hscan] at h; simp at h
    | some st2 =>
      rw [hscan] at h
      dsimp only [Option.map] at h
      injection h with h
      have hrel : holePhaseRel st.1 st2.1 :=
        scanFold_hole_rel img fuel _
          (st.1, List.replicate (img.width * img.height) false) st2 hscan
      have hout : ∀ c ∈ st.1, c.isHole = false ∧ c.parent = -1 :=
        scanFold_outer_inv img fuel _ _ _ houter (by simp)
      subst h
      exact ⟨holePhaseRel_fields hrel hout, st, rfl, hrel⟩

/-- C9 witness: the invariants instantiated on a concrete terminating run
(the 2×2 all-background bitmap, which extracts no contours). -/
theorem extractContours_hierarchy_witness :
    (∀ c ∈ ([] : List Contour), c.isHole = false ∧ c.parent = -1) ∧
    ∃ st : List Contour × List Bool,
      scanFold (outerStep whiteBitmap 1) (scanPositions whiteBitmap.width whiteBitmap.height)
        ([], List.replicate (whiteBitmap.width * whiteBitmap.height) false) = some st ∧
      holePhaseRel st.1 [] :=
  extractContours_hierarchy 1 whiteBitmap [] (by decide)

/-! ## Theorems: grid arithmetic and reachability helpers (C10) -/

theorem getD_set_self {α : Type} (l : List α) (i : ℕ) (b d : α) (h : i < l.length) :
    (l.set i b).getD i d = b := by
  simp [List.getD_eq_getElem?_getD, List.getElem?_set_self h]

theorem getD_set_other {α : Type} (l : List α) {i j : ℕ} (b d : α) (h : i ≠ j) :
    (l.set i b).getD j d = l.getD j d := by
  simp [List.getD_eq_getElem?_getD, List.getElem?_set_ne h]

theorem grid_idx_lt {a b W H : ℕ} (ha : a < H) (hb : b < W) : a * W + b < W * H := by
  calc a * W + b < a * W + W := by omega
    _ = (a + 1) * W := by ring
    _ ≤ H * W := Nat.mul_le_mul_right W (by omega)
    _ = W * H := Nat.mul_comm H W

theorem idxOf_lt {img : ImageData} {e : ℤ × ℤ} (h : inB img e) :
    idxOf img e < img.width * img.height := by
  obtain ⟨h1, h2, h3, h4⟩ := h
  exact grid_idx_lt (by omega) (by omega)

theorem idxOf_mod {img : ImageData} {e : ℤ × ℤ} (h : inB img e) :
    idxOf img e % img.width = e.1.toNat := by
  obtain ⟨h1, h2, h3, h4⟩ := h
  unfold idxOf
  rw [Nat.mul_comm e.2.toNat img.width, Nat.mul_add_mod]
  exact Nat.mod_eq_of_lt (by omega)

theorem idxOf_div {img : ImageData} {e : ℤ × ℤ} (h : inB img e) :
    idxOf img e / img.width = e.2.toNat := by
  obtain ⟨h1, h2, h3, h4⟩ := h
  have hw : 0 < img.width := by omega
  unfold idxOf
  rw [Nat.mul_comm, Nat.mul_add_div hw, Nat.div_eq_of_lt (by omega)]
  omega

theorem width_pos_of_lt {img : ImageData} {i : ℕ} (hi : i < img.width * img.height) :
    0 < img.width := by
  rcases Nat.eq_zero_or_pos img.width with h | h
  · rw [h] at hi
    simp at hi
  · exact h

theorem coord_mod_lt {img : ImageData} {i : ℕ} (hi : i < img.width * img.height) :
    i % img.width < img.width := Nat.mod_lt _ (width_pos_of_lt hi)

theorem coord_div_lt {img : ImageData} {i : ℕ} (hi : i < img.width * img.height) :
    i / img.width < img.height := by
  rw [Nat.div_lt_iff_lt_mul (width_pos_of_lt hi)]
  exact lt_of_lt_of_eq hi (Nat.mul_comm _ _)

theorem coord_inB {img : ImageData} {i : ℕ} (hi : i < img.width * img.height) :
    inB img (((i % img.width : ℕ) : ℤ), ((i / img.width : ℕ) : ℤ)) := by
  have h1 := coord_mod_lt hi
  have h2 := coord_div_lt hi
  refine ⟨Int.natCast_nonneg _, ?_, Int.natCast_nonneg _, ?_⟩
  · show ((i % img.width : ℕ) : ℤ) < (img.width : ℤ)
    exact_mod_cast h1
  · show ((i / img.width : ℕ) : ℤ) < (img.height : ℤ)
    exact_mod_cast h2

theorem coord_idxOf {img : ImageData} {i : ℕ} (hi : i < img.width * img.height) :
    idxOf img (((i % img.width : ℕ) : ℤ), ((i / img.width : ℕ) : ℤ)) = i := by
  unfold idxOf
  simp only [Int.toNat_natCast]
  have h := Nat.div_add_mod i img.width
  have h2 := Nat.mul_comm (i / img.width) img.width
  omega

theorem Adj_symm {img : ImageData} {i j : ℕ} (h : Adj img i j) : Adj img j i := by
  obtain ⟨h1, h2, h3, h4, h5⟩ := h
  exact ⟨h2, h1, h4, h3, by tauto⟩

theorem reach_symm {img : ImageData} {i j : ℕ} (h : Reach img i j) : Reach img j i :=
  Relation.ReflTransGen.symmetric (fun _ _ hab => Adj_symm hab) h

theorem reach_fg {img : ImageData} {s j : ℕ} (hs : isFg img s) (h : Reach img s j) :
    isFg img j := by
  induction h with
  | refl => exact hs
  | tail hab hbc => exact hbc.2.2.2.1

theorem reach_valid {img : ImageData} {s j : ℕ} (hs : s < img.width * img.height)
    (h : Reach img s j) : j < img.width * img.height := by
  induction h with
  | refl => exact hs
  | tail hab hbc => exact hbc.2.1

theorem componentEnum_length_eq {img : ImageData} {s : ℕ} {l1 l2 : List ℕ}
    (h1 : componentEnum img s l1) (h2 : componentEnum img s l2) : l1.length = l2.length :=
  ((List.perm_ext_iff_of_nodup h1.1 h2.1).mpr fun a => (h1.2 a).trans (h2.2 a).symm).length_eq

theorem componentEnum_shift {img : ImageData} {s j : ℕ} {l : List ℕ}
    (h : componentEnum img s l) (hj : j ∈ l) : componentEnum img j l := by
  have hsj : Reach img s j := (h.2 j).mp hj
  refine ⟨h.1, fun k => ?_⟩
  rw [h.2 k]
  exact ⟨fun hsk => (reach_symm hsj).trans hsk, fun hjk => hsj.trans hjk⟩

theorem visited_closed_reach {img : ImageData} {V : List Bool}
    (hcl : ∀ a b, V.getD a false = true → Adj img a b → V.getD b false = true)
    {j s : ℕ} (hr : Reach img j s) (hv : V.getD j false = true) :
    V.getD s false = true := by
  induction hr with
  | refl => exact hv
  | tail hab hbc ih => exact hcl _ _ ih hbc

theorem div_mul_add_mod (k W : ℕ) : k / W * W + k % W = k := by
  have h1 := Nat.div_add_mod k W
  have h2 := Nat.mul_comm (k / W) W
  omega

theorem adj_of_nbr {img : ImageData} {j : ℕ} (hj : j < img.width * img.height)
    (hfgj : isFg img j) {e : ℤ × ℤ} (he : e ∈ idxNbrs img j) (hin : inB img e)
    (hfge : isFg img (idxOf img e)) : Adj img j (idxOf img e) := by
  have hjm := coord_mod_lt hj
  have hjd := coord_div_lt hj
  have hval := idxOf_lt hin
  have hmod := idxOf_mod hin
  have hdiv := idxOf_div hin
  refine ⟨hj, hval, hfgj, hfge, ?_⟩
  obtain ⟨b1, b2, b3, b4⟩ := hin
  simp only [idxNbrs, List.mem_cons, List.not_mem_nil, or_false] at he
  rcases he with rfl | rfl | rfl | rfl <;> dsimp only at hmod hdiv b1 b2 b3 b4 ⊢
  · left
    refine ⟨by rw [hmod]; omega, Or.inl ?_⟩
    rw [hdiv]
    omega
  · left
    refine ⟨by rw [hmod]; omega, Or.inr ?_⟩
    rw [hdiv]
    omega
  · right
    refine ⟨by rw [hdiv]; omega, Or.inl ?_⟩
    rw [hmod]
    omega
  · right
    refine ⟨by rw [hdiv]; omega, Or.inr ?_⟩
    rw [hmod]
    omega

theorem nbr_of_adj {img : ImageData} {j k : ℕ} (hadj : Adj img j k) :
    ∃ e ∈ idxNbrs img j, inB img e ∧ idxOf img e = k := by
  obtain ⟨hj, hk, _, _, hrel⟩ := hadj
  refine ⟨(((k % img.width : ℕ) : ℤ), ((k / img.width : ℕ) : ℤ)), ?_,
    coord_inB hk, coord_idxOf hk⟩
  simp only [idxNbrs, List.mem_cons, List.not_mem_nil, or_false, Prod.mk.injEq]
  rcases hrel with ⟨hmod, hdiv | hdiv⟩ | ⟨hdiv, hmod | hmod⟩
  · have hm : ((k % img.width : ℕ) : ℤ) = ((j % img.width : ℕ) : ℤ) := by
      exact_mod_cast hmod.symm
    have hc : ((j / img.width : ℕ) : ℤ) = ((k / img.width : ℕ) : ℤ) + 1 := by
      exact_mod_cast hdiv
    exact Or.inl ⟨hm, by linarith⟩
  · have hm : ((k % img.width : ℕ) : ℤ) = ((j % img.width : ℕ) : ℤ) := by
      exact_mod_cast hmod.symm
    have hc : ((k / img.width : ℕ) : ℤ) = ((j / img.width : ℕ) : ℤ) + 1 := by
      exact_mod_cast hdiv
    exact Or.inr (Or.inl ⟨hm, by linarith⟩)
  · have hd : ((k / img.width : ℕ) : ℤ) = ((j / img.width : ℕ) : ℤ) := by
      exact_mod_cast hdiv.symm
    have hc : ((j % img.width : ℕ) : ℤ) = ((k % img.width : ℕ) : ℤ) + 1 := by
      exact_mod_cast hmod
    exact Or.inr (Or.inr (Or.inl ⟨by linarith, hd⟩))
  · have hd : ((k / img.width : ℕ) : ℤ) = ((j / img.width : ℕ) : ℤ) := by
      exact_mod_cast hdiv.symm
    have hc : ((k % img.width : ℕ) : ℤ) = ((j % img.width : ℕ) : ℤ) + 1 := by
      exact_mod_cast hmod
    exact Or.inr (Or.inr (Or.inr ⟨by linarith, hd⟩))

theorem idxOf_natCast (img : ImageData) (x y : ℕ) :
    idxOf img ((x : ℤ), (y : ℤ)) = y * img.width + x := by
  unfold idxOf
  simp [Int.toNat_natCast]

theorem getD_set_true_mono {l : List Bool} {i' i : ℕ}
    (h : l.getD i false = true) : (l.set i' true).getD i false = true := by
  by_cases hii : i' = i
  · subst hii
    by_cases hlt : i' < l.length
    · rw [getD_set_self _ _ _ _ hlt]
    · rw [List.set_eq_of_length_le (by omega)]
      exact h
  · rw [getD_set_other _ _ _ hii]
    exact h

theorem floodFillAux_inv (img : ImageData) (seed : ℤ × ℤ) (V0 : List Bool)
    (hseedB : inB img seed) (hseedFg : isFg img (idxOf img seed))
    (hseedUnv : V0.getD (idxOf img seed) false = false)
    (hV0len : V0.length = img.width * img.height) :
    ∀ (fuel : ℕ) (stack : List (ℤ × ℤ)) (visited : List Bool) (component : List ℕ),
      FFInv img seed V0 stack visited component →
      ∀ {v' c'}, floodFillAux img fuel stack visited component = some (v', c') →
      FFInv img seed V0 [] v' c' := by
  intro fuel
  induction fuel with
  | zero =>
    intro stack visited component hinv v' c' hrun
    cases stack with
    | nil =>
      injection hrun with hrun
      injection hrun with h1 h2
      subst h1
      subst h2
      exact hinv
    | cons e rest => exact absurd hrun (by simp [floodFillAux])
  | succ f ih =>
    intro stack visited component hinv v' c' hrun
    cases stack with
    | nil =>
      injection hrun with hrun
      injection hrun with h1 h2
      subst h1
      subst h2
      exact hinv
    | cons e rest =>
      obtain ⟨I1, I2, I3, I4, I5, I6, I7⟩ := hinv
      simp only [floodFillAux] at hrun
      by_cases hin : inB img e
      · rw [if_neg (fun hc => hc hin)] at hrun
        by_cases hv : visited.getD (idxOf img e) false = true
        · rw [if_pos hv] at hrun
          refine ih rest visited component ⟨I1, I2, I3, I4, ?_, ?_, ?_⟩ hrun
          · intro e' he'
            exact I5 e' (List.mem_cons_of_mem e he')
          · intro j hj k hk
            rcases I6 j hj k hk with hvk | ⟨e', he', hb, hidx⟩
            · exact Or.inl hvk
            · rcases List.mem_cons.mp he' with heq | hrest
              · subst heq
                exact Or.inl (by rw [← hidx]; exact hv)
              · exact Or.inr ⟨e', hrest, hb, hidx⟩
          · rcases I7 with hc | hs
            · exact Or.inl hc
            · rcases List.mem_cons.mp hs with heq | hrest
              · rw [heq] at hseedUnv
                rcases (I2 (idxOf img e)).mp hv with hV | hc
                · rw [hV] at hseedUnv
                  exact absurd hseedUnv (by decide)
                · exact Or.inl (heq ▸ hc)
              · exact Or.inr hrest
        · rw [if_neg hv] at hrun
          by_cases hfg : img.data.getD (idxOf img e * 4) 999 ≠ 0
          · rw [if_pos hfg] at hrun
            refine ih rest visited component ⟨I1, I2, I3, I4, ?_, ?_, ?_⟩ hrun
            · intro e' he'
              exact I5 e' (List.mem_cons_of_mem e he')
            · intro j hj k hk
              rcases I6 j hj k hk with hvk | ⟨e', he', hb, hidx⟩
              · exact Or.inl hvk
              · rcases List.mem_cons.mp he' with heq | hrest
                · subst heq
                  exact absurd (show img.data.getD (idxOf img e' * 4) 999 = 0 from
                    hidx ▸ hk.2.2.2.1) hfg
                · exact Or.inr ⟨e', hrest, hb, hidx⟩
            · rcases I7 with hc | hs
              · exact Or.inl hc
              · rcases List.mem_cons.mp hs with heq | hrest
                · exact absurd (show img.data.getD (idxOf img e * 4) 999 = 0 from
                    heq ▸ hseedFg) hfg
                · exact Or.inr hrest
          · rw [if_neg hfg] at hrun
            push_neg at hfg
            have hvalid : idxOf img e < img.width * img.height := idxOf_lt hin
            have hlen : idxOf img e < visited.length := by rw [I1, hV0len]; exact hvalid
            have hFg : isFg img (idxOf img e) := hfg
            have hnotmem : idxOf img e ∉ component :=
              fun hmem => (by rw [(I2 _).mpr (Or.inr hmem)] at hv; exact hv rfl)
            have hre : Reach img (idxOf img seed) (idxOf img e) := by
              rcases I5 e (List.mem_cons_self e rest) with rfl | ⟨j, hjc, hnb⟩
              · exact Relation.ReflTransGen.refl
              · obtain ⟨hrj, hvj, hfgj⟩ := I4 j hjc
                exact hrj.tail (adj_of_nbr hvj hfgj hnb hin hFg)
            have hx : ((idxOf img e % img.width : ℕ) : ℤ) = e.1 := by
              rw [idxOf_mod hin]
              obtain ⟨b1, _, _, _⟩ := hin
              omega
            have hy : ((idxOf img e / img.width : ℕ) : ℤ) = e.2 := by
              rw [idxOf_div hin]
              obtain ⟨_, _, b3, _⟩ := hin
              omega
            have hnbrs : idxNbrs img (idxOf img e) =
                [(e.1, e.2 - 1), (e.1, e.2 + 1), (e.1 - 1, e.2), (e.1 + 1, e.2)] := by
              unfold idxNbrs
              rw [hx, hy]
            refine ih _ _ _ ⟨?_, ?_, ?_, ?_, ?_, ?_, ?_⟩ hrun
            · rw [List.length_set]
              exact I1
            · intro i
              by_cases hii : i = idxOf img e
              · subst hii
                rw [getD_set_self _ _ _ _ hlen]
                constructor
                · intro _
                  exact Or.inr (List.mem_append.mpr (Or.inr (List.mem_singleton.mpr rfl)))
                · intro _
                  rfl
              · rw [getD_set_other _ _ _ (fun h => hii h.symm), I2 i]
                simp only [List.mem_append, List.mem_singleton]
                tauto
            · rw [List.nodup_append]
              exact ⟨I3, List.nodup_singleton _, fun a ha hb => by
                rw [List.mem_singleton] at hb
                exact hnotmem (hb ▸ ha)⟩
            · intro i hi
              rcases List.mem_append.mp hi with hic | hinew
              · exact I4 i hic
              · rw [List.mem_singleton] at hinew
                subst hinew
                exact ⟨hre, hvalid, hFg⟩
            · intro e' he'
              have hmem4 : e' = (e.1, e.2 - 1) ∨ e' = (e.1, e.2 + 1) ∨ e' = (e.1 - 1, e.2) ∨
                  e' = (e.1 + 1, e.2) ∨ e' ∈ rest := by simpa using he'
              have hself : idxOf img e ∈ component ++ [idxOf img e] :=
                List.mem_append.mpr (Or.inr (List.mem_singleton.mpr rfl))
              rcases hmem4 with rfl | rfl | rfl | rfl | hrest
              · exact Or.inr ⟨idxOf img e, hself, by rw [hnbrs]; simp⟩
              · exact Or.inr ⟨idxOf img e, hself, by rw [hnbrs]; simp⟩
              · exact Or.inr ⟨idxOf img e, hself, by rw [hnbrs]; simp⟩
              · exact Or.inr ⟨idxOf img e, hself, by rw [hnbrs]; simp⟩
              · rcases I5 e' (List.mem_cons_of_mem e hrest) with hseed | ⟨j, hj, hn⟩
                · exact Or.inl hseed
                · exact Or.inr ⟨j, List.mem_append.mpr (Or.inl hj), hn⟩
            · intro j hj k hk
              rcases List.mem_append.mp hj with hjc | hjnew
              · rcases I6 j hjc k hk with hvk | ⟨e', he', hb, hidx⟩
                · exact Or.inl (getD_set_true_mono hvk)
                · rcases List.mem_cons.mp he' with heq | hrest
                  · subst heq
                    exact Or.inl (by rw [← hidx]; exact getD_set_self _ _ _ _ hlen)
                  · exact Or.inr ⟨e', by simp [hrest], hb, hidx⟩
              · rw [List.mem_singleton] at hjnew
                subst hjnew
                obtain ⟨e'', he''n, he''b, he''idx⟩ := nbr_of_adj hk
                rw [hnbrs] at he''n
                have h4 : e'' = (e.1, e.2 - 1) ∨ e'' = (e.1, e.2 + 1) ∨
                    e'' = (e.1 - 1, e.2) ∨ e'' = (e.1 + 1, e.2) := by simpa using he''n
                refine Or.inr ⟨e'', ?_, he''b, he''idx⟩
                rcases h4 with rfl | rfl | rfl | rfl <;> simp
            · rcases I7 with hc | hs
              · exact Or.inl (List.mem_append.mpr (Or.inl hc))
              · rcases List.mem_cons.mp hs with heq | hrest
                · exact Or.inl (List.mem_append.mpr (Or.inr (List.mem_singleton.mpr
                    (by rw [heq]))))
                · exact Or.inr (by simp [hrest])
      · rw [if_pos hin] at hrun
        refine ih rest visited component ⟨I1, I2, I3, I4, ?_, ?_, ?_⟩ hrun
        · intro e' he'
          exact I5 e' (List.mem_cons_of_mem e he')
        · intro j hj k hk
          rcases I6 j hj k hk with hvk | ⟨e', he', hb, hidx⟩
          · exact Or.inl hvk
          · rcases List.mem_cons.mp he' with heq | hrest
            · subst heq
              exact absurd hb hin
            · exact Or.inr ⟨e', hrest, hb, hidx⟩
        · rcases I7 with hc | hs
          · exact Or.inl hc
          · rcases List.mem_cons.mp hs with heq | hrest
            · exact absurd (heq ▸ hseedB) hin
            · exact Or.inr hrest

theorem floodFill_correct (img : ImageData) (startX startY : ℕ) (V0 : List Bool)
    (hin : inB img ((startX : ℤ), (startY : ℤ)))
    (hfg : isFg img (startY * img.width + startX))
    (hunv : V0.getD (startY * img.width + startX) false = false)
    (hreach : ∀ j, Reach img (startY * img.width + startX) j → V0.getD j false = false)
    (hV0len : V0.length = img.width * img.height)
    {v' : List Bool} {c' : List ℕ}
    (hrun : floodFill img startX startY V0 = some (v', c')) :
    componentEnum img (startY * img.width + startX) c' ∧
    v'.length = V0.length ∧
    (∀ i, v'.getD i false = true ↔ (V0.getD i false = true ∨ i ∈ c')) ∧
    (∀ i ∈ c', i < img.width * img.height ∧ isFg img i) := by
  have hseedidx : idxOf img ((startX : ℤ), (startY : ℤ)) = startY * img.width + startX :=
    idxOf_natCast img startX startY
  have hinv0 : FFInv img ((startX : ℤ), (startY : ℤ)) V0
      [((startX : ℤ), (startY : ℤ))] V0 [] := by
    refine ⟨rfl, fun i => by simp, List.nodup_nil, by simp, ?_, by simp,
      Or.inr (List.mem_singleton.mpr rfl)⟩
    intro e he
    rw [List.mem_singleton] at he
    exact Or.inl he
  have hfin := floodFillAux_inv img _ V0 hin (by rw [hseedidx]; exact hfg)
    (by rw [hseedidx]; exact hunv) hV0len (floodFillFuel img) _ _ _ hinv0 hrun
  obtain ⟨F1, F2, F3, F4, F5, F6, F7⟩ := hfin
  simp only [hseedidx] at F4 F7
  have hseedmem : startY * img.width + startX ∈ c' := by
    rcases F7 with h | h
    · exact h
    · simp at h
  refine ⟨⟨F3, fun j => ⟨fun hj => (F4 j hj).1, fun hrj => ?_⟩⟩, F1, F2,
    fun i hi => (F4 i hi).2⟩
  induction hrj with
  | refl => exact hseedmem
  | tail hab hbc ih =>
    rcases F6 _ ih _ hbc with hv | ⟨e, he, _⟩
    · rcases (F2 _).mp hv with hV | hc
      · have hcontra := hreach _ (hab.tail hbc)
        rw [hV] at hcontra
        exact absurd hcontra (by decide)
      · exact hc
    · simp at he

/-- Number of valid unvisited pixels (the potential of the flood-fill loop). -/
def unvisitedCount (img : ImageData) (visited : List Bool) : ℕ :=
  (List.range (img.width * img.height)).countP fun i => !(visited.getD i false)

theorem countP_flip {l : List ℕ} {p p' : ℕ → Bool} {a : ℕ} (ha : a ∈ l) (hnd : l.Nodup)
    (hpa : p a = true) (hp'a : p' a = false) (hagree : ∀ b ∈ l, b ≠ a → p b = p' b) :
    List.countP p l = List.countP p' l + 1 := by
  induction l with
  | nil => simp at ha
  | cons x xs ih =>
    rw [List.countP_cons, List.countP_cons]
    rcases List.mem_cons.mp ha with heq | hmem
    · subst heq
    -- a = x : flip at the head, tails agree
      rw [hpa, hp'a]
      have hnotmem : a ∉ xs := (List.nodup_cons.mp hnd).1
      have htails : List.countP p xs = List.countP p' xs :=
        List.countP_congr fun b hb => by
          rw [hagree b (List.mem_cons_of_mem a hb) (fun hba => hnotmem (hba ▸ hb))]
      rw [htails]
      simp
    · have hxa : x ≠ a := fun hxa => (List.nodup_cons.mp hnd).1 (hxa ▸ hmem)
      have hx : p x = p' x := hagree x (List.mem_cons_self x xs) hxa
      have hih := ih hmem (List.nodup_cons.mp hnd).2
        (fun b hb hba => hagree b (List.mem_cons_of_mem x hb) hba)
      rw [hx]
      omega

theorem ff_total (img : ImageData) :
    ∀ (fuel : ℕ) (stack : List (ℤ × ℤ)) (visited : List Bool) (component : List ℕ),
      visited.length = img.width * img.height →
      stack.length + 5 * unvisitedCount img visited < fuel →
      (floodFillAux img fuel stack visited component).isSome := by
  intro fuel
  induction fuel with
  | zero =>
    intro stack visited comp hlen hbound
    omega
  | succ f ih =>
    intro stack visited comp hlen hbound
    cases stack with
    | nil => simp [floodFillAux]
    | cons e rest =>
      simp only [floodFillAux]
      by_cases hin : inB img e
      · rw [if_neg (fun hc => hc hin)]
        by_cases hv : visited.getD (idxOf img e) false = true
        · rw [if_pos hv]
          refine ih rest visited comp hlen ?_
          simp only [List.length_cons] at hbound
          omega
        · rw [if_neg hv]
          by_cases hfg : img.data.getD (idxOf img e * 4) 999 ≠ 0
          · rw [if_pos hfg]
            refine ih rest visited comp hlen ?_
            simp only [List.length_cons] at hbound
            omega
          · rw [if_neg hfg]
            have hvalid : idxOf img e < img.width * img.height := idxOf_lt hin
            have hgd : visited.getD (idxOf img e) false = false := by
              revert hv
              cases visited.getD (idxOf img e) false <;> simp
            have hcount : unvisitedCount img visited =
                unvisitedCount img (visited.set (idxOf img e) true) + 1 := by
              unfold unvisitedCount
              refine countP_flip (List.mem_range.mpr hvalid) (List.nodup_range _) ?_ ?_ ?_
              · rw [hgd]
                rfl
              · rw [getD_set_self _ _ _ _ (by rw [hlen]; exact hvalid)]
                rfl
              · intro b _ hb
                rw [getD_set_other _ _ _ (fun h => hb h.symm)]
            refine ih _ _ _ (by rw [List.length_set]; exact hlen) ?_
            simp only [List.length_cons] at hbound ⊢
            omega
      · rw [if_pos hin]
        refine ih rest visited comp hlen ?_
        simp only [List.length_cons] at hbound
        omega

theorem erase1_length (d : List ℕ) (i : ℕ) : (erase1 d i).length = d.length := by
  simp [erase1]

theorem erase1_getD_miss (d : List ℕ) (i n : ℕ) (h : ∀ k, k < 3 → n ≠ i * 4 + k) :
    (erase1 d i).getD n 999 = d.getD n 999 := by
  unfold erase1
  rw [getD_set_other _ _ _ (fun heq => h 2 (by omega) heq.symm),
    getD_set_other _ _ _ (fun heq => h 1 (by omega) heq.symm),
    getD_set_other _ _ _ (fun heq => h 0 (by omega) (by omega))]

theorem erase1_getD_hit (d : List ℕ) (i k : ℕ) (hk : k < 3) (hlen : i * 4 + 2 < d.length) :
    (erase1 d i).getD (i * 4 + k) 999 = 255 := by
  unfold erase1
  interval_cases k
  · rw [getD_set_other _ _ _ (by omega), getD_set_other _ _ _ (by omega)]
    have h0 : i * 4 + 0 = i * 4 := by omega
    rw [h0, getD_set_self _ _ _ _ (by omega)]
  · rw [getD_set_other _ _ _ (by omega),
      getD_set_self _ _ _ _ (by rw [List.length_set]; omega)]
  · rw [getD_set_self _ _ _ _ (by rw [List.length_set, List.length_set]; omega)]

theorem getD_set_255 (d : List ℕ) (i n : ℕ) (h : d.getD n 999 = 255) :
    (d.set i 255).getD n 999 = 255 := by
  by_cases hin : i = n
  · subst hin
    by_cases hlt : i < d.length
    · rw [getD_set_self _ _ _ _ hlt]
    · rw [List.set_eq_of_length_le (le_of_not_lt hlt)]
      exact h
  · rw [getD_set_other _ _ _ hin]
    exact h

theorem erase1_getD_255 (d : List ℕ) (i n : ℕ) (h : d.getD n 999 = 255) :
    (erase1 d i).getD n 999 = 255 :=
  getD_set_255 _ _ _ (getD_set_255 _ _ _ (getD_set_255 _ _ _ h))

theorem erase_fold_length (l : List ℕ) : ∀ d : List ℕ, (l.foldl erase1 d).length = d.length := by
  induction l with
  | nil => intro d; rfl
  | cons a l ih =>
    intro d
    rw [List.foldl_cons, ih, erase1_length]

theorem erase_fold_getD_miss (l : List ℕ) :
    ∀ (d : List ℕ) (n : ℕ), (∀ j ∈ l, ∀ k, k < 3 → n ≠ j * 4 + k) →
      (l.foldl erase1 d).getD n 999 = d.getD n 999 := by
  induction l with
  | nil => intro d n _; rfl
  | cons a l ih =>
    intro d n h
    rw [List.foldl_cons, ih _ _ (fun j hj => h j (List.mem_cons_of_mem a hj)),
      erase1_getD_miss _ _ _ (h a (List.mem_cons_self a l))]

theorem erase_fold_getD_255 (l : List ℕ) :
    ∀ (d : List ℕ) (n : ℕ), d.getD n 999 = 255 →
      (l.foldl erase1 d).getD n 999 = 255 := by
  induction l with
  | nil => intro d n h; exact h
  | cons a l ih =>
    intro d n h
    rw [List.foldl_cons]
    exact ih _ _ (erase1_getD_255 _ _ _ h)

theorem erase_fold_getD_hit (l : List ℕ) :
    ∀ (d : List ℕ) {j : ℕ}, j ∈ l → ∀ k, k < 3 → j * 4 + 2 < d.length →
      (l.foldl erase1 d).getD (j * 4 + k) 999 = 255 := by
  induction l with
  | nil => intro d j hj; simp at hj
  | cons a l ih =>
    intro d j hj k hk hlen
    rw [List.foldl_cons]
    by_cases hmem : j ∈ l
    · exact ih _ hmem k hk (by rw [erase1_length]; exact hlen)
    · have hja : j = a := by
        rcases List.mem_cons.mp hj with h | h
        · exact h
        · exact absurd h hmem
      subst hja
      exact erase_fold_getD_255 l _ _ (erase1_getD_hit d j k hk hlen)

theorem mem_scanPositions {w h x y : ℕ} :
    (x, y) ∈ scanPositions w h ↔ x < w ∧ y < h := by
  simp only [scanPositions, List.mem_flatMap, List.mem_map, List.mem_range, Prod.mk.injEq]
  constructor
  · rintro ⟨b, hb, a, ha, rfl, rfl⟩
    exact ⟨ha, hb⟩
  · rintro ⟨hx, hy⟩
    exact ⟨y, hy, x, hx, rfl, rfl⟩

theorem getD_replicate_false : ∀ (n i : ℕ), (List.replicate n false).getD i false = false := by
  intro n
  induction n with
  | zero => intro i; rfl
  | succ m ih =>
    intro i
    cases i with
    | zero => rfl
    | succ i' =>
      rw [List.replicate_succ, List.getD_cons_succ]
      exact ih i'

theorem removeSpecklesStep_inv (img : ImageData) (minArea : ℚ) (pos : ℕ × ℕ)
    (hx : pos.1 < img.width) (hy : pos.2 < img.height)
    (hdata : 4 * (img.width * img.height) ≤ img.data.length)
    {st st' : List Bool × List ℕ} (hinv : RSInv img minArea st)
    (hstep : removeSpecklesStep img minArea pos st = some st') :
    RSInv img minArea st' ∧
    (∀ i, st.1.getD i false = true → st'.1.getD i false = true) ∧
    (st'.1.getD (pos.2 * img.width + pos.1) false = true ∨
      ¬ isFg img (pos.2 * img.width + pos.1)) := by
  obtain ⟨I1, I2, I3, I4, I5, I6⟩ := hinv
  unfold removeSpecklesStep at hstep
  by_cases hguard : ¬ st.1.getD (pos.2 * img.width + pos.1) false = true ∧
      img.data.getD ((pos.2 * img.width + pos.1) * 4) 999 = 0
  case neg =>
    rw [if_neg hguard] at hstep
    obtain rfl := Option.some.inj hstep
    refine ⟨⟨I1, I2, I3, I4, I5, I6⟩, fun i h => h, ?_⟩
    by_cases hv : st.1.getD (pos.2 * img.width + pos.1) false = true
    · exact Or.inl hv
    · right
      intro hfg
      unfold isFg at hfg
      exact hguard ⟨hv, hfg⟩
  case pos =>
    rw [if_pos hguard] at hstep
    obtain ⟨hunv', hfg0⟩ := hguard
    have hunv : st.1.getD (pos.2 * img.width + pos.1) false = false := by
      revert hunv'
      cases st.1.getD (pos.2 * img.width + pos.1) false <;> simp
    have hfg : isFg img (pos.2 * img.width + pos.1) := hfg0
    have hsval : pos.2 * img.width + pos.1 < img.width * img.height := grid_idx_lt hy hx
    have hinB : inB img ((pos.1 : ℤ), (pos.2 : ℤ)) := by
      refine ⟨Int.natCast_nonneg _, ?_, Int.natCast_nonneg _, ?_⟩
      · show ((pos.1 : ℕ) : ℤ) < (img.width : ℤ)
        exact_mod_cast hx
      · show ((pos.2 : ℕ) : ℤ) < (img.height : ℤ)
        exact_mod_cast hy
    have hreach0 : ∀ j, Reach img (pos.2 * img.width + pos.1) j →
        st.1.getD j false = false := by
      intro j hrj
      by_contra hne
      have hjt : st.1.getD j false = true := by
        revert hne
        cases st.1.getD j false <;> simp
      have hst := visited_closed_reach I3 (reach_symm hrj) hjt
      rw [hunv] at hst
      exact absurd hst (by decide)
    cases hff : floodFill img pos.1 pos.2 st.1 with
    | none =>
      rw [hff] at hstep
      exact absurd hstep (by simp)
    | some vc =>
      obtain ⟨v', comp⟩ := vc
      rw [hff] at hstep
      have hstep2 : (if (comp.length : ℚ) < minArea then
          some (v', List.foldl erase1 st.2 comp)
        else some (v', st.2)) = some st' := hstep
      obtain ⟨henum, hvlen, hviff, hvmem⟩ :=
        floodFill_correct img pos.1 pos.2 st.1 hinB hfg hunv hreach0 I1 hff
      have hsmem : pos.2 * img.width + pos.1 ∈ comp :=
        (henum.2 _).mpr Relation.ReflTransGen.refl
      have hN1 : v'.length = img.width * img.height := hvlen.trans I1
      have hN2 : ∀ j, v'.getD j false = true → j < img.width * img.height ∧ isFg img j := by
        intro j hj
        rcases (hviff j).mp hj with h | h
        · exact I2 j h
        · exact hvmem j h
      have hN3 : ∀ j k, v'.getD j false = true → Adj img j k → v'.getD k false = true := by
        intro j k hj hadj
        rcases (hviff j).mp hj with h | h
        · exact (hviff k).mpr (Or.inl (I3 j k h hadj))
        · exact (hviff k).mpr (Or.inr ((henum.2 k).mpr (((henum.2 j).mp h).tail hadj)))
      have hmono : ∀ i, st.1.getD i false = true → v'.getD i false = true :=
        fun i h => (hviff i).mpr (Or.inl h)
      by_cases hsmall : (comp.length : ℚ) < minArea
      · rw [if_pos hsmall] at hstep2
        obtain rfl := Option.some.inj hstep2
        refine ⟨⟨hN1, hN2, hN3, ?_, ?_, ?_⟩, hmono, Or.inl ((hviff _).mpr (Or.inr hsmem))⟩
        · show (comp.foldl erase1 st.2).length = img.data.length
          rw [erase_fold_length]
          exact I4
        · intro n
          show (comp.foldl erase1 st.2).getD n 999 = img.data.getD n 999 ∨ _
          by_cases hhit : ∃ j ∈ comp, ∃ k, k < 3 ∧ n = j * 4 + k
          · obtain ⟨j, hjmem, k, hk, rfl⟩ := hhit
            obtain ⟨hjval, hjfg⟩ := hvmem j hjmem
            have hlen2 : j * 4 + 2 < st.2.length := by
              rw [I4]
              omega
            have hdivj : (j * 4 + k) / 4 = j := by omega
            have hmodk : (j * 4 + k) % 4 = k := by omega
            right
            rw [hdivj, hmodk]
            exact ⟨hk, hjval, hjfg, erase_fold_getD_hit comp st.2 hjmem k hk hlen2,
              comp, componentEnum_shift henum hjmem, hsmall⟩
          · push_neg at hhit
            rw [erase_fold_getD_miss comp st.2 n hhit]
            exact I5 n
        · intro j hj hwit k hk
          show (comp.foldl erase1 st.2).getD (j * 4 + k) 999 = 255
          rcases (hviff j).mp hj with hold | hcm
          · exact erase_fold_getD_255 comp st.2 _ (I6 j hold hwit k hk)
          · obtain ⟨hjval, _⟩ := hvmem j hcm
            exact erase_fold_getD_hit comp st.2 hcm k hk (by rw [I4]; omega)
      · rw [if_neg hsmall] at hstep2
        obtain rfl := Option.some.inj hstep2
        refine ⟨⟨hN1, hN2, hN3, I4, I5, ?_⟩, hmono,
          Or.inl ((hviff _).mpr (Or.inr hsmem))⟩
        intro j hj hwit k hk
        rcases (hviff j).mp hj with hold | hcm
        · exact I6 j hold hwit k hk
        · obtain ⟨l, hl, hlsmall⟩ := hwit
          have hleq := componentEnum_length_eq hl (componentEnum_shift henum hcm)
          rw [hleq] at hlsmall
          exact absurd hlsmall hsmall

theorem rsFold_inv (img : ImageData) (minArea : ℚ)
    (hdata : 4 * (img.width * img.height) ≤ img.data.length) :
    ∀ (ps : List (ℕ × ℕ)) (st : List Bool × List ℕ),
      (∀ p ∈ ps, p.1 < img.width ∧ p.2 < img.height) →
      RSInv img minArea st →
      ∀ {st' : List Bool × List ℕ},
        rsFold (removeSpecklesStep img minArea) ps st = some st' →
        RSInv img minArea st' ∧
        (∀ i, st.1.getD i false = true → st'.1.getD i false = true) ∧
        (∀ p ∈ ps, st'.1.getD (p.2 * img.width + p.1) false = true ∨
          ¬ isFg img (p.2 * img.width + p.1)) := by
  intro ps
  induction ps with
  | nil =>
    intro st _ hinv st' hrun
    obtain rfl := Option.some.inj hrun
    exact ⟨hinv, fun i h => h, fun p hp => absurd hp (List.not_mem_nil p)⟩
  | cons p ps ih =>
    intro st hps hinv st' hrun
    rw [rsFold] at hrun
    cases hstep : removeSpecklesStep img minArea p st with
    | none =>
      rw [hstep] at hrun
      exact absurd hrun (by simp)
    | some st1 =>
      rw [hstep] at hrun
      have hp := hps p (List.mem_cons_self p ps)
      obtain ⟨hinv1, hmono1, hpos1⟩ :=
        removeSpecklesStep_inv img minArea p hp.1 hp.2 hdata hinv hstep
      obtain ⟨hinv', hmono', hcov'⟩ :=
        ih st1 (fun q hq => hps q (List.mem_cons_of_mem p hq)) hinv1 hrun
      refine ⟨hinv', fun i h => hmono' i (hmono1 i h), ?_⟩
      intro q hq
      rcases List.mem_cons.mp hq with rfl | hq'
      · rcases hpos1 with h | h
        · exact Or.inl (hmono' _ h)
        · exact Or.inr h
      · exact hcov' q hq'

theorem floodFillAux_len (img : ImageData) :
    ∀ (fuel : ℕ) (stack : List (ℤ × ℤ)) (visited : List Bool) (component : List ℕ)
      {v' : List Bool} {c' : List ℕ},
      floodFillAux img fuel stack visited component = some (v', c') →
      v'.length = visited.length := by
  intro fuel
  induction fuel with
  | zero =>
    intro stack visited component v' c' hrun
    cases stack with
    | nil =>
      obtain ⟨h1, _⟩ := Prod.mk.injEq .. ▸ Option.some.inj hrun
      rw [← h1]
    | cons e rest => exact absurd hrun (by simp [floodFillAux])
  | succ f ih =>
    intro stack visited component v' c' hrun
    cases stack with
    | nil =>
      obtain ⟨h1, _⟩ := Prod.mk.injEq .. ▸ Option.some.inj hrun
      rw [← h1]
    | cons e rest =>
      rw [floodFillAux] at hrun
      by_cases hin : inB img e
      · rw [if_neg (fun hc => hc hin)] at hrun
        by_cases hv : visited.getD (idxOf img e) false = true
        · rw [if_pos hv] at hrun
          exact ih rest visited component hrun
        · rw [if_neg hv] at hrun
          by_cases hfg : img.data.getD (idxOf img e * 4) 999 ≠ 0
          · rw [if_pos hfg] at hrun
            exact ih rest visited component hrun
          · rw [if_neg hfg] at hrun
            have := ih _ _ _ hrun
            rw [this, List.length_set]
      · rw [if_pos hin] at hrun
        exact ih rest visited component hrun

theorem rsFold_total (img : ImageData) (minArea : ℚ) :
    ∀ (ps : List (ℕ × ℕ)) (st : List Bool × List ℕ),
      st.1.length = img.width * img.height →
      (rsFold (removeSpecklesStep img minArea) ps st).isSome := by
  intro ps
  induction ps with
  | nil =>
    intro st _
    rfl
  | cons p ps ih =>
    intro st hlen
    rw [rsFold]
    by_cases hguard : ¬ st.1.getD (p.2 * img.width + p.1) false = true ∧
        img.data.getD ((p.2 * img.width + p.1) * 4) 999 = 0
    · have hffS : (floodFill img p.1 p.2 st.1).isSome := by
        have hcnt : unvisitedCount img st.1 ≤ img.width * img.height := by
          have := List.countP_le_length
            (l := List.range (img.width * img.height))
            (p := fun i => !(st.1.getD i false))
          rw [List.length_range] at this
          exact this
        refine ff_total img (floodFillFuel img) _ st.1 [] hlen ?_
        show 1 + 5 * unvisitedCount img st.1 < 2 + 5 * (img.width * img.height)
        omega
      cases hff : floodFill img p.1 p.2 st.1 with
      | none => rw [hff] at hffS; exact absurd hffS (by simp)
      | some vc =>
        obtain ⟨v', comp⟩ := vc
        have hstep : removeSpecklesStep img minArea p st =
            if (comp.length : ℚ) < minArea then
              some (v', List.foldl erase1 st.2 comp)
            else some (v', st.2) := by
          unfold removeSpecklesStep
          rw [if_pos hguard, hff]
        have hvlen : v'.length = img.width * img.height := by
          rw [floodFillAux_len img _ _ _ _ hff]
          exact hlen
        rw [hstep]
        by_cases hsmall : (comp.length : ℚ) < minArea
        · rw [if_pos hsmall]
          exact ih (v', List.foldl erase1 st.2 comp) hvlen
        · rw [if_neg hsmall]
          exact ih (v', st.2) hvlen
    · have hstep : removeSpecklesStep img minArea p st = some st := by
        unfold removeSpecklesStep
        rw [if_neg hguard]
      rw [hstep]
      exact ih st hlen

/-- C10: for every RGBA bitmap (buffer of exactly 4·width·height bytes) and
every `minArea`, `removeSpeckles` terminates and returns a buffer of the same
dimensions in which every background pixel and every foreground pixel of a
4-connected component of size ≥ `minArea` keeps its exact RGBA bytes, the
R/G/B bytes of foreground pixels in components of size < `minArea` become
255, every alpha byte is unchanged, and no other byte changes. -/
theorem removeSpeckles_spec (img : ImageData) (minArea : ℚ)
    (hdata : img.data.length = 4 * (img.width * img.height)) :
    ∃ out, removeSpeckles img minArea = some out ∧ speckleSpec img minArea out := by
  have hdata' : 4 * (img.width * img.height) ≤ img.data.length := by omega
  have hlen0 : ((List.replicate (img.width * img.height) false, img.data) :
      List Bool × List ℕ).1.length = img.width * img.height :=
    List.length_replicate _ _
  have hT := rsFold_total img minArea (scanPositions img.width img.height) _ hlen0
  cases hR : rsFold (removeSpecklesStep img minArea)
      (scanPositions img.width img.height)
      (List.replicate (img.width * img.height) false, img.data) with
  | none =>
    rw [hR] at hT
    simp at hT
  | some stf =>
    have hinv0 : RSInv img minArea
        (List.replicate (img.width * img.height) false, img.data) := by
      refine ⟨List.length_replicate _ _, ?_, ?_, rfl, fun n => Or.inl rfl, ?_⟩
      · intro j h
        have h' : (List.replicate (img.width * img.height) false).getD j false = true := h
        rw [getD_replicate_false] at h'
        exact absurd h' (by decide)
      · intro j k h _
        have h' : (List.replicate (img.width * img.height) false).getD j false = true := h
        rw [getD_replicate_false] at h'
        exact absurd h' (by decide)
      · intro j h _
        have h' : (List.replicate (img.width * img.height) false).getD j false = true := h
        rw [getD_replicate_false] at h'
        exact absurd h' (by decide)
    obtain ⟨⟨F1, F2, F3, F4, F5, F6⟩, _, hcov⟩ :=
      rsFold_inv img minArea hdata' (scanPositions img.width img.height) _
        (fun p hp => by obtain ⟨x, y⟩ := p; exact mem_scanPositions.mp hp) hinv0 hR
    have hfgvis : ∀ j, j < img.width * img.height → isFg img j →
        stf.1.getD j false = true := by
      intro j hj hfg
      have hmem : (j % img.width, j / img.width) ∈
          scanPositions img.width img.height :=
        mem_scanPositions.mpr ⟨coord_mod_lt hj, coord_div_lt hj⟩
      have hxy : stf.1.getD (j / img.width * img.width + j % img.width) false = true ∨
          ¬ isFg img (j / img.width * img.width + j % img.width) :=
        hcov (j % img.width, j / img.width) hmem
      rw [div_mul_add_mod] at hxy
      rcases hxy with h | h
      · exact h
      · exact absurd hfg h
    refine ⟨⟨img.width, img.height, stf.2⟩, ?_, rfl, rfl, F4, ?_, ?_, ?_, ?_, ?_⟩
    · unfold removeSpeckles
      rw [hR]
      rfl
    · intro n h3
      rcases F5 n with h | ⟨hm, _⟩
      · exact h
      · exact absurd h3 (by omega)
    · intro j hbg k hk4
      rcases F5 (j * 4 + k) with h | ⟨_, _, hfg4, _⟩
      · exact h
      · have hdiv : (j * 4 + k) / 4 = j := by omega
        rw [hdiv] at hfg4
        unfold isFg at hfg4
        unfold isBg at hbg
        rw [hfg4] at hbg
        exact absurd hbg (by decide)
    · intro j l henum hbig k hk4
      rcases F5 (j * 4 + k) with h | ⟨_, _, _, _, l', hl', hsmall'⟩
      · exact h
      · have hdiv : (j * 4 + k) / 4 = j := by omega
        rw [hdiv] at hl'
        have hleq := componentEnum_length_eq hl' henum
        rw [hleq] at hsmall'
        exact absurd hsmall' (not_lt.mpr hbig)
    · intro j l hj hfg henum hsmall k hk3
      exact F6 j (hfgvis j hj hfg) ⟨l, henum, hsmall⟩ k hk3
    · intro n hne
      rcases F5 n with h | hr
      · exact absurd h hne
      · exact hr

theorem removeSpeckles_spec_witness :
    speckBitmap.data.length = 4 * (speckBitmap.width * speckBitmap.height) ∧
    ∃ out, removeSpeckles speckBitmap 2 = some out ∧ speckleSpec speckBitmap 2 out :=
  ⟨by decide, removeSpeckles_spec speckBitmap 2 (by decide)⟩

end PNG2Vec
